import Mathlib

/-!
Verification of the CV generation pipeline (job parsing, profile tailoring,
rendering, path safety) against its natural-language specification.

The definitions below are a shallow embedding of the TypeScript sources:
  - src/lib/path-utils.ts       (sanitizeFileName, safeJoinPath)
  - src/lib/cv-generator.ts     (tailorSummary, prioritizeSkills, formatDuration,
                                 groupAndTailorExperience)
  - src/lib/job-parser.ts       (extractHiringManagerName, formatCoverLetterAsHTML)
  - src/lib/document-generator.ts (formatCVAsHTML wrapper pieces, generateDocument
                                 PDF branch, temp stylesheet lifecycle)
  - src/lib/config.ts           (ConfigSchema style whitelists)

Strings are modelled as Lean `String`/`List Char`; JavaScript semantics
(`String.prototype.replace` with a global regex, `path.posix` operations,
`Date` parsing restricted to the ISO `YYYY`, `YYYY-MM`, `YYYY-MM-DD` grammar,
ASCII case folding) are reproduced by explicit executable functions.
Rendering of dates is modelled at UTC.
-/

/-! ## Generic character and list utilities -/

/-- ASCII lower-casing of a single character, matching what
`String.prototype.toLowerCase` does on ASCII input (the only case the
claims exercise). -/
def asciiLower (c : Char) : Char :=
  if 'A' ≤ c ∧ c ≤ 'Z' then Char.ofNat (c.toNat + 32) else c

/-- Lower-case every character of a list. -/
def lowerL (l : List Char) : List Char := l.map asciiLower

/-- Lower-case a string (ASCII). -/
def lowerStr (s : String) : String := String.mk (lowerL s.toList)

/-- JavaScript whitespace as used by `trim` and `\s` (ASCII subset). -/
def isWsChar (c : Char) : Bool :=
  c = ' ' || c = '\t' || c = '\n' || c = '\r' || c = '\x0b' || c = '\x0c'

/-- Trim leading and trailing whitespace from a character list. -/
def trimL (l : List Char) : List Char :=
  ((l.dropWhile isWsChar).reverse.dropWhile isWsChar).reverse

/-- JavaScript `String.prototype.trim` (ASCII whitespace). -/
def jsTrim (s : String) : String := String.mk (trimL s.toList)

/-- Does the list `l` start with the prefix list `p`? -/
def startsWithL (p l : List Char) : Bool :=
  match p, l with
  | [], _ => true
  | _ :: _, [] => false
  | a :: ps, b :: ls => a = b && startsWithL ps ls

/-- Does the list `l` contain `p` as a contiguous substring? -/
def containsSubL (l p : List Char) : Bool :=
  match l with
  | [] => startsWithL p []
  | _ :: t => startsWithL p l || containsSubL t p

/-- Does the string `s` contain `p` as a substring? -/
def containsSubStr (s p : String) : Bool := containsSubL s.toList p.toList

/-- Case-insensitive substring containment, the model of
`a.toLowerCase().includes(b.toLowerCase())`. -/
def containsCI (s p : String) : Bool := containsSubL (lowerL s.toList) (lowerL p.toList)

/-- Does the string `s` start with `p`? -/
def strStartsWith (s p : String) : Bool := startsWithL p.toList s.toList

/-- Join a list of strings with a separator, the model of `Array.prototype.join`. -/
def joinSep (sep : String) : List String → String
  | [] => ""
  | [x] => x
  | x :: y :: t => x ++ sep ++ joinSep sep (y :: t)

/-- Deduplicate keeping the first occurrence, with an accumulator of seen values;
models insertion into a JavaScript `Set`. -/
def dedupeAux (seen : List String) : List String → List String
  | [] => []
  | x :: t => if seen.contains x then dedupeAux seen t else x :: dedupeAux (x :: seen) t

/-- Deduplicate a list of strings keeping first occurrences (JavaScript `Set`
iteration order). -/
def dedupeKeepFirst (l : List String) : List String := dedupeAux [] l

/-! ## path-utils.ts: sanitizeFileName and safeJoinPath -/

/-- Remove every NUL byte; models `s.replace(/\0/g, "")`. -/
def removeNul (l : List Char) : List Char := l.filter (fun c => c ≠ '\x00')

/-- Remove every non-overlapping occurrence of `..` scanning left to right;
models `s.replace(/\.\./g, "")`. -/
def removeDotDot : List Char → List Char
  | '.' :: '.' :: t => removeDotDot t
  | c :: t => c :: removeDotDot t
  | [] => []

/-- Does a character list avoid adjacent dot pairs? Auxiliary predicate for
reasoning about traversal sequences in sanitized names. -/
def noDD : List Char → Bool
  | [] => true
  | [_] => true
  | a :: b :: t => !(a == '.' && b == '.') && noDD (b :: t)

/-- The characters `sanitizeFileName` considers hostile:
the class `[<>:"|?*\/\\]`. -/
def hostileChar (c : Char) : Bool :=
  c = '<' || c = '>' || c = ':' || c = '"' || c = '|' || c = '?' || c = '*' ||
  c = '/' || c = '\\'

/-- Replace every hostile character with an underscore; models
`s.replace(/[<>:"|?*\/\\]/g, "_")`. -/
def replaceHostile (l : List Char) : List Char :=
  l.map (fun c => if hostileChar c then '_' else c)

/-- Model of `path.posix.basename`: drop trailing slashes, then keep the part after the
last remaining slash. -/
def posixBasename (l : List Char) : List Char :=
  ((l.reverse.dropWhile (fun c => c = '/')).takeWhile (fun c => c ≠ '/')).reverse

/-- The sanitization pipeline of `sanitizeFileName` before the emptiness check:
basename, then `..` removal, then NUL removal, then hostile-character
replacement — in exactly the order the source applies them. -/
def sanitizeCore (s : String) : List Char :=
  replaceHostile (removeNul (removeDotDot (posixBasename s.toList)))

/-- Does a character list begin with a dot? -/
def startsWithDot : List Char → Bool
  | '.' :: _ => true
  | _ => false

/-- Model of `sanitizeFileName` from path-utils.ts. Throws (modelled as `Except.error`)
on an empty input and when the sanitized result is empty or whitespace-only;
prefixes a leading dot with an underscore. -/
def sanitizeFileName (s : String) : Except String String :=
  if s.toList.isEmpty then Except.error "Invalid filename provided"
  else if (sanitizeCore s).isEmpty || (sanitizeCore s).all isWsChar then
    Except.error "Filename is invalid after sanitization"
  else if startsWithDot (sanitizeCore s) then Except.ok (String.mk ('_' :: sanitizeCore s))
  else Except.ok (String.mk (sanitizeCore s))

/-- Split a character list on `/` into raw components. -/
def splitSlash : List Char → List (List Char)
  | [] => [[]]
  | '/' :: t => [] :: splitSlash t
  | c :: t =>
    match splitSlash t with
    | [] => [[c]]
    | h :: r => (c :: h) :: r

/-- One step of POSIX path normalization over components: empty components and
`.` are dropped; `..` pops the stack (dropped at the root of an absolute
path). The stack is kept reversed (head = deepest). -/
def normFold (stack : List String) (c : String) : List String :=
  if c = "" ∨ c = "." then stack
  else if c = ".." then
    match stack with
    | [] => []
    | _ :: rest => rest
  else c :: stack

/-- Components of `path.resolve(cwd, s)` for an absolute working directory:
absolute inputs stand alone, relative inputs are prefixed with `cwd`, then
normalized. -/
def resolvedComps (cwd s : String) : List String :=
  let full := if strStartsWith s "/" then s else cwd ++ "/" ++ s
  (((splitSlash full.toList).map String.mk).foldl normFold []).reverse

/-- Render normalized components back into an absolute path string. -/
def compsToAbsString (l : List String) : String :=
  "/" ++ joinSep "/" l

/-- Drop the common prefix of two component lists, returning the two
remainders; the core of `path.relative`. -/
def dropCommon : List String → List String → List String × List String
  | a :: as_, b :: bs =>
    if a = b then dropCommon as_ bs else (a :: as_, b :: bs)
  | as_, bs => (as_, bs)

/-- Model of `path.relative(fromP, toP)` on already-resolved absolute paths (modelled at
the component level, joined with `/`; `..` for every remaining component of
the source). -/
def pathRelativeComps (fromC toC : List String) : String :=
  let p := dropCommon fromC toC
  joinSep "/" (List.replicate p.1.length ".." ++ p.2)

/-- Segment sanitization inside `safeJoinPath`: NUL bytes removed first, then
`..` sequences removed. -/
def sanitizeSegment (s : String) : String :=
  String.mk (removeDotDot (removeNul s.toList))

/-- Model of `path.join(base, ...segments)` before resolution: non-empty parts joined
with `/` (the normalization `path.join` would also perform is subsumed by the
`path.resolve` that immediately follows in `safeJoinPath`). -/
def pathJoinMany (base : String) (segs : List String) : String :=
  let parts := (base :: segs).filter (fun p => p ≠ "")
  match parts with
  | [] => "."
  | _ => joinSep "/" parts

/-- Model of `safeJoinPath` from path-utils.ts: sanitize each segment, join with the
base, resolve, and reject the result when `path.relative(base, result)`
starts with `..` or is absolute. `cwd` stands for the working directory used
by `path.resolve`. -/
def safeJoinPath (cwd base : String) (segments : List String) : Except String String :=
  if strStartsWith
       (pathRelativeComps (resolvedComps cwd base)
         (resolvedComps cwd (pathJoinMany base (segments.map sanitizeSegment)))) ".." ||
     strStartsWith
       (pathRelativeComps (resolvedComps cwd base)
         (resolvedComps cwd (pathJoinMany base (segments.map sanitizeSegment)))) "/" then
    Except.error ("Resulting path would escape base directory: " ++ base)
  else
    Except.ok
      (compsToAbsString (resolvedComps cwd (pathJoinMany base (segments.map sanitizeSegment))))

/-! ## JavaScript dates (ISO subset) and cv-generator.ts -/

/-- Numeric value of an ASCII digit, if any. -/
def digitVal (c : Char) : Option Nat :=
  if '0' ≤ c ∧ c ≤ '9' then some (c.toNat - '0'.toNat) else none

/-- Value of a list of ASCII digits, if all are digits. -/
def digitsVal : List Char → Option Nat
  | [] => some 0
  | _ => none

/-- Days in a month of the proleptic Gregorian calendar. -/
def daysInMonth (y m : Nat) : Nat :=
  if m = 2 then
    if y % 4 = 0 ∧ (y % 100 ≠ 0 ∨ y % 400 = 0) then 29 else 28
  else if m = 4 ∨ m = 6 ∨ m = 9 ∨ m = 11 then 30
  else 31

/-- A parsed calendar date: year, month (1-12), day (1-based). -/
abbrev JsDate := Nat × Nat × Nat

/-- Model of `new Date(s)` restricted to the ISO forms `YYYY`, `YYYY-MM` and
`YYYY-MM-DD` (the date-only grammar of ECMA-262); anything else is modelled
as an invalid date (`none`). Missing month and day default to 1. -/
def parseJsDate (s : String) : Option JsDate :=
  match s.toList.map digitVal, s.toList with
  | [some a, some b, some c, some d], _ =>
      some (a * 1000 + b * 100 + c * 10 + d, 1, 1)
  | [some a, some b, some c, some d, none, some e, some f], [_, _, _, _, '-', _, _] =>
      let y := a * 1000 + b * 100 + c * 10 + d
      let m := e * 10 + f
      if 1 ≤ m ∧ m ≤ 12 then some (y, m, 1) else none
  | [some a, some b, some c, some d, none, some e, some f, none, some g, some h],
    [_, _, _, _, '-', _, _, '-', _, _] =>
      let y := a * 1000 + b * 100 + c * 10 + d
      let m := e * 10 + f
      let dd := g * 10 + h
      if 1 ≤ m ∧ m ≤ 12 ∧ 1 ≤ dd ∧ dd ≤ daysInMonth y m then some (y, m, dd) else none
  | _, _ => none

/-- A key monotone in `Date.prototype.getTime` for parsed dates. -/
def dateKey (d : JsDate) : Nat := d.1 * 416 + d.2.1 * 32 + d.2.2

/-- English three-letter month abbreviation, as produced by
`toLocaleDateString("en-US", { month: "short" })`. -/
def monthAbbrev (m : Nat) : String :=
  match m with
  | 1 => "Jan" | 2 => "Feb" | 3 => "Mar" | 4 => "Apr" | 5 => "May" | 6 => "Jun"
  | 7 => "Jul" | 8 => "Aug" | 9 => "Sep" | 10 => "Oct" | 11 => "Nov" | 12 => "Dec"
  | _ => ""

/-- Model of `toLocaleDateString` with short month and numeric year,
rendered at UTC. -/
def formatMonthYear (d : JsDate) : String :=
  monthAbbrev d.2.1 ++ " " ++ toString d.1

/-- Model of `formatDuration` from cv-generator.ts: an unparseable start yields the
literal invalid marker; a missing, blank, `present` or unparseable end
yields `<start> - Present`; otherwise `<start> - <end>`, both at month-year
granularity. -/
def formatDuration (startDate : String) (endDate : Option String) : String :=
  match parseJsDate startDate with
  | none => "Invalid start date"
  | some sd =>
    let startMonth := formatMonthYear sd
    match endDate with
    | none => startMonth ++ " - Present"
    | some e =>
      if jsTrim e = "" ∨ lowerStr e = "present" then startMonth ++ " - Present"
      else
        match parseJsDate e with
        | none => startMonth ++ " - Present"
        | some ed => startMonth ++ " - " ++ formatMonthYear ed

/-- One experience entry of a user profile (job-parser.ts `UserProfileSchema`). -/
structure ExperienceEntry where
  jobTitle : String
  company : String
  location : Option String
  startDate : String
  endDate : Option String
  description : String
  achievements : Option (List String)
deriving DecidableEq, Repr

/-- One tailored experience entry of the output model (cv-generator.ts
`TailoredCV.experience`). -/
structure TailoredExperience where
  jobTitle : String
  company : String
  location : Option String
  duration : String
  description : String
  achievements : List String
deriving DecidableEq, Repr

/-- The parsed job requirement record (job-parser.ts `ParsedJobRequirements`). -/
structure ParsedJobRequirements where
  jobTitle : String
  company : String
  keySkills : List String
  requiredSkills : List String
  preferredSkills : List String
  keyWords : List String
  experienceLevel : String
  location : Option String := none
  salaryRange : Option String := none
  jobType : Option String := none
  benefits : Option (List String) := none
  contactEmails : Option (List String) := none
  hiringManagerName : Option String := none
deriving DecidableEq, Repr

/-- One step of summary tailoring: append an `Experienced with X.` sentence for
a key skill absent from the summary so far (case-insensitive containment). -/
def tailorSummaryStep (acc skill : String) : String :=
  if containsCI acc skill then acc else acc ++ " Experienced with " ++ skill ++ "."

/-- Replace the first occurrence of `pat` (case-sensitive) by `rep`; models
`String.prototype.replace` with a string pattern. -/
def replaceFirstL (pat rep : List Char) : List Char → List Char
  | [] => []
  | c :: t => if startsWithL pat (c :: t) then rep ++ (c :: t).drop pat.length
              else c :: replaceFirstL pat rep t

/-- Model of `tailorSummary` from cv-generator.ts: append missing key skills, then, for
a senior-level requirement whose summary does not mention `senior`, replace
the first literal `experienced` with `senior experienced`. -/
def tailorSummary (summary : String) (req : ParsedJobRequirements) : String :=
  let t := req.keySkills.foldl tailorSummaryStep summary
  if req.experienceLevel = "senior" ∧ ¬(containsCI t "senior" = true) then
    String.mk (replaceFirstL "experienced".toList "senior experienced".toList t.toList)
  else t

/-- The match predicate of `prioritizeSkills`: the lower-cased skill is a
member of the lower-cased required list, or some required skill is a
substring of the skill (case-insensitive, this one direction only). -/
def skillMatches (requiredSkills : List String) (skill : String) : Bool :=
  (requiredSkills.map lowerStr).contains (lowerStr skill) ||
  requiredSkills.any (fun r => containsSubL (lowerL skill.toList) (lowerL r.toList))

/-- Model of `prioritizeSkills` from cv-generator.ts: push each skill onto the matched
or unmatched accumulator in order, then concatenate matched before
unmatched. -/
def prioritizeSkills (userSkills requiredSkills : List String) : List String :=
  let p := userSkills.foldl
    (fun (acc : List String × List String) s =>
      if skillMatches requiredSkills s then (acc.1 ++ [s], acc.2) else (acc.1, acc.2 ++ [s]))
    ([], [])
  p.1 ++ p.2

/-- The skill-prioritization the specification describes: a stable partition
whose match predicate is a case-insensitive substring test in either
direction. This follows the words of the spec; it is compared against
`prioritizeSkills`, which is translated from the source. -/
def specPrioritizeSkills (userSkills requiredSkills : List String) : List String :=
  let matchesEither := fun (s : String) =>
    requiredSkills.any (fun r =>
      containsSubL (lowerL s.toList) (lowerL r.toList) ||
      containsSubL (lowerL r.toList) (lowerL s.toList))
  userSkills.filter matchesEither ++ userSkills.filter (fun s => ¬(matchesEither s = true))

/-- Is `c` a regex word character (`\w`, i.e. `[A-Za-z0-9_]`)? -/
def wordCharB (c : Char) : Bool :=
  ('A' ≤ c && c ≤ 'Z') || ('a' ≤ c && c ≤ 'z') || ('0' ≤ c && c ≤ '9') || c = '_'

/-- Is there a `\b` word boundary between a previous character (none at the
start of the text) and a next character (none at the end)? -/
def wordBoundary (prev next : Option Char) : Bool :=
  (match prev with | none => false | some c => wordCharB c) ≠
  (match next with | none => false | some c => wordCharB c)

/-- Case-insensitive literal match of `pat` at the head of `l`, returning the
remainder. -/
def matchLitCI (pat l : List Char) : Option (List Char) :=
  match pat, l with
  | [], _ => some l
  | _ :: _, [] => none
  | a :: ps, b :: ls => if asciiLower a = asciiLower b then matchLitCI ps ls else none

/-- Fuel-driven scan of `new RegExp("\\b" + skill + "\\b", "gi")` replacement
with `**skill**`, for skills free of regex metacharacters (every skill in the
fixed vocabulary is). `prev` is the character before the scan position. -/
def highlightAux (skill : List Char) : Nat → Option Char → List Char → List Char
  | 0, _, l => l
  | _ + 1, _, [] => []
  | fuel + 1, prev, c :: t =>
    match matchLitCI skill (c :: t) with
    | some rest =>
      if wordBoundary prev (some c) ∧
         wordBoundary ((skill.getLast?).orElse (fun _ => prev)) rest.head? then
        '*' :: '*' :: skill ++ '*' :: '*' :: highlightAux skill fuel skill.getLast? rest
      else c :: highlightAux skill fuel (some c) t
    | none => c :: highlightAux skill fuel (some c) t

/-- Replace every word-bounded, case-insensitive occurrence of `skill` in
`text` with `**skill**`; models the highlighting regex of cv-generator.ts. -/
def highlightWordCI (skill : String) (text : String) : String :=
  match skill.toList with
  | [] => text
  | l => String.mk (highlightAux l text.toList.length none text.toList)

/-- Model of `tailorExperienceDescription`: wrap each key skill occurring as a whole
word in emphasis markers. -/
def tailorExperienceDescription (desc : String) (req : ParsedJobRequirements) : String :=
  req.keySkills.foldl (fun acc skill => highlightWordCI skill acc) desc

/-- Model of `tailorAchievement`: the same highlighting, driven by the keyword list. -/
def tailorAchievement (ach : String) (req : ParsedJobRequirements) : String :=
  req.keyWords.foldl (fun acc kw => highlightWordCI kw acc) ach

/-- Append an experience entry to the group of its (trimmed) company name,
creating the group at the end on first sight; models insertion into a
JavaScript `Map` keyed by `exp.company.trim()`. -/
def addToGroup : List (String × List ExperienceEntry) → String → ExperienceEntry →
    List (String × List ExperienceEntry)
  | [], c, e => [(c, [e])]
  | (c', es) :: t, c, e =>
    if c' = c then (c', es ++ [e]) :: t else (c', es) :: addToGroup t c e

/-- Group experience entries by trimmed company name, preserving first-seen
order of companies and in-group order of entries. -/
def groupByCompany (exps : List ExperienceEntry) : List (String × List ExperienceEntry) :=
  exps.foldl (fun acc e => addToGroup acc (jsTrim e.company) e) []

/-- Sort key of the in-group sort: the parsed start date. An unparseable start
gives a `NaN` comparison in the source, whose sort order is implementation
defined; the model maps it below every real date and keeps the sort stable.
The theorems about grouping only concern entries whose dates parse. -/
def startKey (e : ExperienceEntry) : Int :=
  match parseJsDate e.startDate with
  | some d => (dateKey d : Int)
  | none => -1

/-- Stable insertion into a descending-sorted list: the new element goes after
every element with a greater-or-equal key. -/
def insertDesc (k : ExperienceEntry → Int) (x : ExperienceEntry) :
    List ExperienceEntry → List ExperienceEntry
  | [] => [x]
  | y :: ys => if k x ≤ k y then y :: insertDesc k x ys else x :: y :: ys

/-- Stable sort by parsed start date, most recent first; models the V8 stable
`Array.prototype.sort` with comparator `dateB - dateA`. -/
def sortDescByStart (es : List ExperienceEntry) : List ExperienceEntry :=
  es.foldl (fun acc e => insertDesc startKey e acc) []

/-- Tailoring of a single-role company: per-entry duration formatting and
highlighting. -/
def singleEntryTailor (req : ParsedJobRequirements) (e : ExperienceEntry) :
    TailoredExperience where
  jobTitle := e.jobTitle
  company := e.company
  location := e.location
  duration := formatDuration e.startDate e.endDate
  description := tailorExperienceDescription e.description req
  achievements := (e.achievements.getD []).map (fun a => tailorAchievement a req)

/-- Consolidation of one company group, already sorted most-recent-first.
A singleton group renders unchanged; a multi-entry group merges into one
entry with a `(Previously: ...)` title, a duration from the earliest start to
the most recent end, concatenated descriptions and deduplicated achievements
behind a progression summary. -/
def processGroup (req : ParsedJobRequirements) (company : String)
    (es : List ExperienceEntry) : List TailoredExperience :=
  match sortDescByStart es with
  | [] => []
  | [e] => [singleEntryTailor req e]
  | m :: rest =>
    let sorted := m :: rest
    let allTitles := (sorted.map (fun e => e.jobTitle)).reverse
    let consolidatedTitle :=
      m.jobTitle ++ " (Previously: " ++ joinSep ", " allTitles.dropLast ++ ")"
    let earliest := rest.getLastD m
    let totalDuration := formatDuration earliest.startDate m.endDate
    let allDescriptions :=
      (sorted.map (fun e => tailorExperienceDescription e.description req)).filter
        (fun d => jsTrim d ≠ "")
    let consolidatedDescription :=
      if 1 < allDescriptions.length then
        "Career progression through multiple roles: " ++ joinSep " " allDescriptions
      else allDescriptions.headD ""
    let allAchievements :=
      dedupeKeepFirst
        (((sorted.map (fun e => (e.achievements.getD []).map
            (fun a => tailorAchievement a req))).flatten).filter
          (fun a => jsTrim a ≠ ""))
    let roleProgression :=
      "Progressed through " ++ toString sorted.length ++ " roles: " ++
      joinSep " → " ((sorted.map (fun e =>
        e.jobTitle ++ " (" ++ formatDuration e.startDate e.endDate ++ ")")).reverse)
    [{ jobTitle := consolidatedTitle
       company := company
       location := m.location
       duration := totalDuration
       description := consolidatedDescription
       achievements := roleProgression :: allAchievements }]

/-- All maximal values matched by the global regex `/(\d{4})/g`: at each
position try four digits, skip past a match, advance one character otherwise. -/
def fourDigitRuns : List Char → List Nat
  | a :: b :: c :: d :: t =>
    match digitVal a, digitVal b, digitVal c, digitVal d with
    | some x, some y, some z, some w =>
      (x * 1000 + y * 100 + z * 10 + w) :: fourDigitRuns t
    | _, _, _, _ =>
      match a :: b :: c :: d :: t with
      | _ :: t' => fourDigitRuns t'
      | [] => []
  | _ => []

/-- Model of `extractYear` of the final re-sort: the maximum four-digit number embedded
in a duration string, zero when none occurs. -/
def maxEmbeddedYear (s : String) : Nat :=
  (fourDigitRuns s.toList).foldl max 0

/-- Stable insertion for the final descending re-sort by embedded year. -/
def insertYearDesc (x : TailoredExperience) :
    List TailoredExperience → List TailoredExperience
  | [] => [x]
  | y :: ys =>
    if maxEmbeddedYear x.duration ≤ maxEmbeddedYear y.duration then
      y :: insertYearDesc x ys
    else x :: y :: ys

/-- The final re-sort of tailored entries by maximum embedded year, descending
and stable. -/
def sortByMaxYearDesc (l : List TailoredExperience) : List TailoredExperience :=
  l.foldl (fun acc e => insertYearDesc e acc) []

/-- Model of `groupAndTailorExperience` from cv-generator.ts: group by trimmed company,
consolidate each group, then re-sort by the year heuristic. -/
def groupAndTailorExperience (exps : List ExperienceEntry)
    (req : ParsedJobRequirements) : List TailoredExperience :=
  sortByMaxYearDesc
    (((groupByCompany exps).map (fun g => processGroup req g.1 g.2)).flatten)

/-! ## job-parser.ts: extractHiringManagerName -/

/-- Is `c` an ASCII letter? With the `i` flag, `[A-Z]` and `[a-z]` both match
any ASCII letter. -/
def asciiLetterB (c : Char) : Bool :=
  ('A' ≤ c && c ≤ 'Z') || ('a' ≤ c && c ≤ 'z')

/-- Is `c` an ASCII upper-case letter? -/
def upperB (c : Char) : Bool := 'A' ≤ c && c ≤ 'Z'

/-- Is `c` an ASCII lower-case letter? -/
def lowerB (c : Char) : Bool := 'a' ≤ c && c ≤ 'z'

/-- Greedy match of `[A-Z][a-z]+` under the `i` flag (at least two ASCII
letters, maximal run); the character classes adjacent in every pattern are
disjoint, so maximal munch coincides with the backtracking regex engine. -/
def matchWordCIAt (l : List Char) : Option (List Char × List Char) :=
  let w := l.takeWhile asciiLetterB
  if 2 ≤ w.length then some (w, l.dropWhile asciiLetterB) else none

/-- Greedy match of `\s+`. -/
def matchWsAt (l : List Char) : Option (List Char × List Char) :=
  let w := l.takeWhile isWsChar
  if 1 ≤ w.length then some (w, l.dropWhile isWsChar) else none

/-- Greedy match of `[:\s]+`. -/
def matchColonWsAt (l : List Char) : Option (List Char) :=
  let p := fun c => c = ':' || isWsChar c
  if 1 ≤ (l.takeWhile p).length then some (l.dropWhile p) else none

/-- Greedy match of `[,\s]+`. -/
def matchCommaWsAt (l : List Char) : Option (List Char) :=
  let p := fun c => c = ',' || isWsChar c
  if 1 ≤ (l.takeWhile p).length then some (l.dropWhile p) else none

/-- Match of the capture group `([A-Z][a-z]+\s+[A-Z][a-z]+)` under the `i`
flag: two letter words separated by whitespace, all of it captured. -/
def matchNameAt (l : List Char) : Option (List Char × List Char) :=
  match matchWordCIAt l with
  | none => none
  | some (w1, r1) =>
    match matchWsAt r1 with
    | none => none
    | some (ws, r2) =>
      match matchWordCIAt r2 with
      | none => none
      | some (w2, r3) => some (w1 ++ ws ++ w2, r3)

/-- Pattern 1 anchored at a position: `contact\s+(name)`. -/
def p1At (l : List Char) : Option (List Char) :=
  (matchLitCI "contact".toList l).bind fun r =>
    (matchWsAt r).bind fun p => (matchNameAt p.2).map (fun q => q.1)

/-- Pattern 2 anchored at a position: `reach\s+out\s+to\s+(name)`. -/
def p2At (l : List Char) : Option (List Char) :=
  (matchLitCI "reach".toList l).bind fun r1 =>
    (matchWsAt r1).bind fun w1 =>
      (matchLitCI "out".toList w1.2).bind fun r2 =>
        (matchWsAt r2).bind fun w2 =>
          (matchLitCI "to".toList w2.2).bind fun r3 =>
            (matchWsAt r3).bind fun w3 => (matchNameAt w3.2).map (fun q => q.1)

/-- Pattern 3 anchored at a position: `hiring\s+manager[:\s]+(name)`. -/
def p3At (l : List Char) : Option (List Char) :=
  (matchLitCI "hiring".toList l).bind fun r1 =>
    (matchWsAt r1).bind fun w1 =>
      (matchLitCI "manager".toList w1.2).bind fun r2 =>
        (matchColonWsAt r2).bind fun r3 => (matchNameAt r3).map (fun q => q.1)

/-- Pattern 4 anchored at a position: `questions\?\s+contact\s+(name)`. -/
def p4At (l : List Char) : Option (List Char) :=
  (matchLitCI "questions?".toList l).bind fun r1 =>
    (matchWsAt r1).bind fun w1 =>
      (matchLitCI "contact".toList w1.2).bind fun r2 =>
        (matchWsAt r2).bind fun w2 => (matchNameAt w2.2).map (fun q => q.1)

/-- Pattern 5 anchored at a position: `(name)[,\s]+hiring\s+manager`. -/
def p5At (l : List Char) : Option (List Char) :=
  (matchNameAt l).bind fun q =>
    (matchCommaWsAt q.2).bind fun r1 =>
      (matchLitCI "hiring".toList r1).bind fun r2 =>
        (matchWsAt r2).bind fun w1 =>
          (matchLitCI "manager".toList w1.2).map (fun _ => q.1)

/-- Does `.` fail to match this character (newline family)? -/
def dotExcluded (c : Char) : Bool :=
  c = '\n' || c = '\r' || c.toNat = 0x2028 || c.toNat = 0x2029

/-- Matcher for `to\s+(name)` anchored at a position. -/
def toNameAt (l : List Char) : Option (List Char) :=
  (matchLitCI "to".toList l).bind fun r =>
    (matchWsAt r).bind fun w => (matchNameAt w.2).map (fun q => q.1)

/-- Backtracking of the greedy `.+` of pattern 6: try the rightmost start of
`to\s+(name)` first, moving left, never crossing a newline. -/
def p6Go : List Char → Option (List Char)
  | [] => none
  | c :: rest =>
    ((if ¬(dotExcluded c = true) then p6Go rest else none)).orElse
      (fun _ => toNameAt (c :: rest))

/-- Pattern 6 anchored at a position: `please\s+send.+to\s+(name)` (the `.+`
consumes at least one non-newline character). -/
def p6At (l : List Char) : Option (List Char) :=
  (matchLitCI "please".toList l).bind fun r1 =>
    (matchWsAt r1).bind fun w1 =>
      (matchLitCI "send".toList w1.2).bind fun r2 =>
        match r2 with
        | [] => none
        | c :: rest => if dotExcluded c then none else p6Go rest

/-- Leftmost match of an anchored pattern, the model of `String.match` without
the `g` flag: try every start position from the left. -/
def scanFor (f : List Char → Option (List Char)) : List Char → Option (List Char)
  | [] => f []
  | c :: rest =>
    match f (c :: rest) with
    | some x => some x
    | none => scanFor f rest

/-- The validation regex `^[A-Z][a-z]+\s+[A-Z][a-z]+$` (case-sensitive):
exactly two capitalized words separated by whitespace. -/
def validateName (l : List Char) : Bool :=
  match l with
  | [] => false
  | c :: rest =>
    upperB c &&
    (let w1 := rest.takeWhile lowerB
     let r1 := rest.dropWhile lowerB
     1 ≤ w1.length &&
     (let ws := r1.takeWhile isWsChar
      let r2 := r1.dropWhile isWsChar
      1 ≤ ws.length &&
      (match r2 with
       | [] => false
       | d :: rest2 =>
         upperB d &&
         (let w2 := rest2.takeWhile lowerB
          1 ≤ w2.length && (rest2.dropWhile lowerB).isEmpty))))

/-- Run one pattern of the loop body of `extractHiringManagerName`: take the
leftmost match, trim it, and keep it only when the validation regex accepts;
otherwise this pattern contributes nothing and the loop continues. -/
def runPattern (f : List Char → Option (List Char)) (l : List Char) : Option String :=
  match scanFor f l with
  | none => none
  | some cap =>
    let n := trimL cap
    if validateName n then some (String.mk n) else none

/-- Model of `extractHiringManagerName` from job-parser.ts: the six contextual patterns
in order; each contributes its leftmost match, and the first pattern whose
candidate passes validation wins. -/
def extractHiringManagerName (desc : String) : Option String :=
  (runPattern p1At desc.toList).orElse fun _ =>
    (runPattern p2At desc.toList).orElse fun _ =>
      (runPattern p3At desc.toList).orElse fun _ =>
        (runPattern p4At desc.toList).orElse fun _ =>
          (runPattern p5At desc.toList).orElse fun _ =>
            runPattern p6At desc.toList

/-- The extraction the specification describes: the first pattern that
matches wins outright, and its candidate is then validated — a pattern whose
candidate fails validation ends the search with no name. This follows the
words of the spec; it is compared against `extractHiringManagerName`, which
is translated from the source. -/
def specExtractHiringManagerName (desc : String) : Option String :=
  let l := desc.toList
  let firstMatch :=
    (scanFor p1At l).orElse fun _ =>
      (scanFor p2At l).orElse fun _ =>
        (scanFor p3At l).orElse fun _ =>
          (scanFor p4At l).orElse fun _ =>
            (scanFor p5At l).orElse fun _ => scanFor p6At l
  match firstMatch with
  | none => none
  | some cap =>
    let n := trimL cap
    if validateName n then some (String.mk n) else none

/-! ## cover-letter-generator.ts: formatCoverLetterAsHTML -/

/-- The identity block of a profile (job-parser.ts `personalInfo`). -/
structure PersonalInfo where
  fullName : String
  email : String
  phone : Option String := none
  location : Option String := none
  linkedIn : Option String := none
  github : Option String := none
  website : Option String := none
deriving DecidableEq, Repr

/-- The recipient block of a cover letter. -/
structure CoverLetterRecipient where
  companyName : String
  hiringManagerName : Option String := none
  department : Option String := none
  jobTitle : String
  emailAddress : Option String := none
deriving DecidableEq, Repr

/-- The content block of a cover letter. -/
structure CoverLetterContent where
  opening : String
  body : List String
  closing : String
deriving DecidableEq, Repr

/-- Model of `CoverLetterData` from cover-letter-generator.ts. `generateCoverLetter`
copies `personalInfo` (including `fullName`) verbatim from the user profile
into this record. -/
structure CoverLetterData where
  personalInfo : PersonalInfo
  recipient : CoverLetterRecipient
  content : CoverLetterContent
  signature : String
deriving DecidableEq, Repr

/-- JavaScript truthiness on an optional string: `none` and the empty string
are falsy. Models `x ? f(x) : ""`. -/
def optTruthy (o : Option String) (f : String → String) : String :=
  match o with
  | none => ""
  | some s => if s = "" then "" else f s

/-- Fuel-driven global replacement of a non-empty pattern, scanning left to
right without rescanning replacements; models
`String.prototype.replace` with a `g`-flagged literal pattern. -/
def replaceAllAux (pat rep : List Char) : Nat → List Char → List Char
  | 0, l => l
  | _ + 1, [] => []
  | fuel + 1, c :: t =>
    if startsWithL pat (c :: t) then rep ++ replaceAllAux pat rep fuel ((c :: t).drop pat.length)
    else c :: replaceAllAux pat rep fuel t

/-- Replace every occurrence of `pat` by `rep` in `s`. -/
def replaceAllStr (pat rep s : String) : String :=
  match pat.toList with
  | [] => s
  | l => String.mk (replaceAllAux l rep.toList s.toList.length s.toList)

/-- The fixed `<style>` block of the cover-letter HTML template. -/
def coverLetterStyle : String :=
  "\n    <style>\n        body \x7b\n            font-family: -apple-system, BlinkMacSystemFont, \x27Segoe UI\x27, Roboto, \x27Calibri\x27, sans-serif;\n            line-height: 1.6;\n            color: #333;\n            max-width: 800px;\n            margin: 0 auto;\n            padding: 40px 20px;\n            background: #fff;\n        \x7d\n        \n        .header \x7b\n            text-align: left;\n            margin-bottom: 30px;\n        \x7d\n        \n        .header h1 \x7b\n            margin: 0;\n            color: #2c3e50;\n            font-size: 24px;\n        \x7d\n        \n        .contact-info \x7b\n            margin: 10px 0;\n            color: #7f8c8d;\n        \x7d\n        \n        .date \x7b\n            margin: 20px 0;\n            font-weight: 500;\n        \x7d\n        \n        .recipient \x7b\n            margin: 20px 0;\n            font-weight: 500;\n        \x7d\n        \n        .subject \x7b\n            margin: 20px 0;\n            font-weight: bold;\n            color: #2c3e50;\n        \x7d\n        \n        .content \x7b\n            margin: 30px 0;\n        \x7d\n        \n        .content p \x7b\n            margin-bottom: 20px;\n            text-align: justify;\n        \x7d\n        \n        .signature \x7b\n            margin-top: 30px;\n            white-space: pre-line;\n        \x7d\n        \n        @media print \x7b\n            body \x7b\n                padding: 0;\n                background: white;\n            \x7d\n        \x7d\n    </style>\n"

/-- Model of `formatCoverLetterAsHTML` from cover-letter-generator.ts: interpolates the
profile name, contact details, recipient block, subject, paragraphs and
signature directly into the HTML template. No interpolated value is escaped.
The current date (the only impure input of the source) is a parameter. -/
def formatCoverLetterAsHTML (c : CoverLetterData) (currentDate : String) : String :=
  "<!DOCTYPE html>\n<html lang=\"en\">\n<head>\n    <meta charset=\"UTF-8\">\n    <meta name=\"viewport\" content=\"width=device-width, initial-scale=1.0\">\n    <title>Cover Letter - " ++ c.personalInfo.fullName ++ "</title>" ++
  coverLetterStyle ++
  "</head>\n<body>\n    <div class=\"header\">\n        <h1>" ++ c.personalInfo.fullName ++ "</h1>\n        <div class=\"contact-info\">\n            " ++ c.personalInfo.email ++ "\n            " ++
  optTruthy c.personalInfo.phone (fun p => " | " ++ p) ++ "\n            " ++
  optTruthy c.personalInfo.location (fun p => " | " ++ p) ++ "\n        </div>\n    </div>\n    \n    <div class=\"date\">" ++ currentDate ++ "</div>\n    \n    <div class=\"recipient\">\n        " ++
  (c.recipient.hiringManagerName.getD "") ++
  optTruthy c.recipient.hiringManagerName (fun _ => "<br>") ++ "\n        " ++
  c.recipient.companyName ++ "\n        " ++
  optTruthy c.recipient.emailAddress (fun e => "<br>" ++ e) ++ "\n    </div>\n    \n    <div class=\"subject\">Re: Application for " ++ c.recipient.jobTitle ++ " Position</div>\n    \n    <div class=\"content\">\n        <p>" ++
  replaceAllStr "\n\n" "</p><p>" c.content.opening ++ "</p>\n        " ++
  String.join (c.content.body.map (fun p => "<p>" ++ p ++ "</p>")) ++ "\n        <p>" ++
  c.content.closing ++ "</p>\n    </div>\n    \n    <div class=\"signature\">" ++ c.signature ++ "</div>\n</body>\n</html>"

/-! ## config.ts whitelists and document-generator.ts PDF branch -/

/-- The page-size whitelist of `ConfigSchema` (`z.enum`). -/
def pageSizeWhitelist : List String := ["A4", "A3", "A5", "Letter", "Legal", "Tabloid"]

/-- Membership in the page-size whitelist. -/
def pageSizeOk (s : String) : Bool := pageSizeWhitelist.contains s

/-- The margin validation regex `^\d+(\.\d+)?(mm|cm|in|px|pt)$` of
`ConfigSchema`. -/
def marginOk (s : String) : Bool :=
  let l := s.toList
  let intPart := l.takeWhile (fun c => (digitVal c).isSome)
  let rest := l.dropWhile (fun c => (digitVal c).isSome)
  let afterFrac :=
    match rest with
    | '.' :: r =>
      let frac := r.takeWhile (fun c => (digitVal c).isSome)
      if 1 ≤ frac.length then some (r.dropWhile (fun c => (digitVal c).isSome)) else none
    | r => some r
  1 ≤ intPart.length &&
  (match afterFrac with
   | some u => ["mm", "cm", "in", "px", "pt"].contains (String.mk u)
   | none => false)

/-- The font-size validation regex `^\d+px$` of `ConfigSchema`. -/
def fontSizeOk (s : String) : Bool :=
  let l := s.toList
  let intPart := l.takeWhile (fun c => (digitVal c).isSome)
  1 ≤ intPart.length && String.mk (l.dropWhile (fun c => (digitVal c).isSome)) = "px"

/-- JavaScript `a || b` on an optional environment value: missing or empty
falls through to the default. -/
def jsOrDefault (v : Option String) (dflt : String) : String :=
  match v with
  | none => dflt
  | some s => if s = "" then dflt else s

/-- The effective page size of `generateDocument`:
`pdfOptions?.pageSize || process.env.PDF_PAGE_SIZE || "A4"`. No validation is
applied on this path. -/
def effectivePageSize (opt env : Option String) : String :=
  jsOrDefault opt (jsOrDefault env "A4")

/-- The stylesheet text `generateDocument` writes to the temporary CSS file,
as a function of the seven style strings interpolated into it. The source
fills these directly from `process.env` defaults without validating them. -/
def pdfCssContent (baseFontSize lineHeight h1FontSize h2FontSize h3FontSize
    paragraphSpacing sectionSpacing : String) : String :=
  "body \x7b\n          font-family: -apple-system, BlinkMacSystemFont, \x27Segoe UI\x27, Roboto, \x27Calibri\x27, sans-serif;\n          font-size: " ++ baseFontSize ++ ";\n          line-height: " ++ lineHeight ++ ";\n          color: #333;\n          max-width: none;\n          margin: 0;\n          padding: 20px;\n        \x7d\n        h1 \x7b\n          color: #2c3e50;\n          border-bottom: 2px solid #3498db;\n          padding-bottom: 6px;\n          margin-bottom: " ++ sectionSpacing ++ ";\n          margin-top: 0;\n          font-size: " ++ h1FontSize ++ ";\n          font-weight: 600;\n          line-height: 1.2;\n        \x7d\n        h2 \x7b\n          color: #2980b9;\n          border-bottom: 1px solid #bdc3c7;\n          padding-bottom: 3px;\n          margin-top: " ++ sectionSpacing ++ ";\n          margin-bottom: " ++ paragraphSpacing ++ ";\n          font-size: " ++ h2FontSize ++ ";\n          font-weight: 600;\n          line-height: 1.3;\n        \x7d\n        h3 \x7b\n          color: #34495e;\n          margin-bottom: 4px;\n          margin-top: " ++ paragraphSpacing ++ ";\n          font-size: " ++ h3FontSize ++ ";\n          font-weight: 600;\n          line-height: 1.3;\n        \x7d\n        p \x7b\n          margin-top: 0;\n          margin-bottom: " ++ paragraphSpacing ++ ";\n        \x7d\n        strong \x7b\n          color: #2c3e50;\n          font-weight: 600;\n        \x7d\n        em \x7b\n          color: #7f8c8d;\n        \x7d\n        ul \x7b\n          margin: " ++ paragraphSpacing ++ " 0;\n          padding-left: 20px;\n        \x7d\n        li \x7b\n          margin-bottom: 3px;\n          line-height: " ++ lineHeight ++ ";\n        \x7d\n        hr \x7b\n          border: none;\n          border-top: 1px solid #ecf0f1;\n          margin: 20px 0;\n        \x7d"

/-- The temporary stylesheet path of `generateDocument`:
`path.join(os.tmpdir(), "cv-style-" + Date.now() + ".css")` — a deterministic
function of the millisecond clock, not a random name. -/
def tempCssPath (tmpdir : String) (nowMs : Nat) : String :=
  tmpdir ++ "/cv-style-" ++ toString nowMs ++ ".css"

/-- A filesystem effect of the PDF branch. -/
inductive FsOp where
  | writeFile (path : String)
  | unlink (path : String)
deriving DecidableEq, Repr

/-- The outcome of the external conversion and the two verification probes of
the PDF branch. -/
structure PdfRun where
  nowMs : Nat
  convThrows : Bool
  pdfFilenameOk : Bool
  outputFileExists : Bool
deriving DecidableEq, Repr

/-- The filesystem-effect trace and result of the PDF branch of
`generateDocument`: write the temporary stylesheet; run the conversion
(rethrowing on failure without any cleanup); unlink the stylesheet only
after a successful conversion; then verify the output. -/
def pdfBranch (tmpdir filePath : String) (run : PdfRun) :
    List FsOp × Except String String :=
  let css := tempCssPath tmpdir run.nowMs
  if run.convThrows then
    ([FsOp.writeFile css], Except.error "PDF generation failed: conversion error")
  else
    let ops := [FsOp.writeFile css, FsOp.unlink css]
    if ¬(run.pdfFilenameOk = true) then
      (ops, Except.error "PDF generation failed: PDF generation failed - no output file created")
    else if run.outputFileExists then (ops, Except.ok filePath)
    else (ops, Except.error ("PDF generation failed: PDF file was not created at " ++ filePath))

/-! ## Concrete instances used by the claim theorems -/

/-- A minimal requirement record with no recognized skills or keywords. -/
def emptyReq : ParsedJobRequirements where
  jobTitle := "Senior Engineer"
  company := "Acme"
  keySkills := []
  requiredSkills := []
  preferredSkills := []
  keyWords := []
  experienceLevel := "mid"

/-- The earlier Acme role of the consolidation example of the spec. -/
def acmeEngineer : ExperienceEntry where
  jobTitle := "Engineer"
  company := "Acme"
  location := none
  startDate := "2019-01"
  endDate := some "2021-01"
  description := ""
  achievements := none

/-- The later, still open Acme role of the consolidation example of the spec. -/
def acmeSeniorEngineer : ExperienceEntry where
  jobTitle := "Senior Engineer"
  company := "Acme"
  location := none
  startDate := "2021-01"
  endDate := some "present"
  description := ""
  achievements := none

/-- A requirement record whose key skill spans the text the senior-level
rewrite of `tailorSummary` edits. -/
def seniorReq : ParsedJobRequirements :=
  { emptyReq with keySkills := ["very experienced"], experienceLevel := "senior" }

/-- A requirement record with a non-senior level, for the witness of the
summary-tailoring theorem. -/
def midReq : ParsedJobRequirements :=
  { emptyReq with keySkills := ["Python"], experienceLevel := "mid" }

/-- A cover letter derived from a profile whose full name carries a script
tag; `generateCoverLetter` copies the profile name into this record
verbatim. -/
def scriptNameCoverLetter : CoverLetterData where
  personalInfo :=
    { fullName := "<script>alert(1)</script>"
      email := "jane@example.com" }
  recipient :=
    { companyName := "Acme"
      jobTitle := "Engineer" }
  content :=
    { opening := "Dear Hiring Manager,\n\nI am writing to apply."
      body := ["I have experience."]
      closing := "Thank you." }
  signature := "Sincerely,\nJane"

/-- A style value that fails every whitelist pattern of `ConfigSchema` yet
flows into the generated stylesheet: it closes the `font-size` declaration
and opens a new rule. -/
def evilFontSize : String :=
  "12px; \x7d body \x7b background: url(http://evil.example)"

/-! ## Helper lemmas -/

theorem strToList_append (a b : String) : (a ++ b).toList = a.toList ++ b.toList := rfl

theorem startsWithL_self_append (k r : List Char) : startsWithL k (k ++ r) = true := by
  induction k with
  | nil => rfl
  | cons c t ih => simp [startsWithL, ih]

theorem startsWithL_append_right (p l u : List Char) (h : startsWithL p l = true) :
    startsWithL p (l ++ u) = true := by
  induction p generalizing l with
  | nil => rfl
  | cons a ps ih =>
    cases l with
    | nil => simp [startsWithL] at h
    | cons b ls =>
      simp [startsWithL] at h ⊢
      exact ⟨h.1, ih ls h.2⟩

theorem containsSubL_cons (c : Char) (t p : List Char) (h : containsSubL t p = true) :
    containsSubL (c :: t) p = true := by
  simp [containsSubL, h]

theorem containsSubL_nil (l : List Char) : containsSubL l [] = true := by
  induction l with
  | nil => rfl
  | cons c t ih => simp [containsSubL, startsWithL, ih]

theorem containsSubL_append_mid (a p b : List Char) :
    containsSubL (a ++ p ++ b) p = true := by
  induction a with
  | nil =>
    cases p with
    | nil => simpa using containsSubL_nil b
    | cons x xs =>
      have h := startsWithL_self_append (x :: xs) b
      simp only [List.nil_append, List.cons_append, containsSubL, Bool.or_eq_true]
      exact Or.inl (by simpa using h)
  | cons c t ih => exact containsSubL_cons c _ p ih

theorem containsSubL_append_right (l p u : List Char) (h : containsSubL l p = true) :
    containsSubL (l ++ u) p = true := by
  induction l with
  | nil =>
    cases p with
    | nil => simpa using containsSubL_nil u
    | cons x xs => simp [containsSubL, startsWithL] at h
  | cons c t ih =>
    simp only [containsSubL, Bool.or_eq_true] at h
    rcases h with h | h
    · simp only [List.cons_append, containsSubL, Bool.or_eq_true]
      exact Or.inl (startsWithL_append_right _ _ u h)
    · exact containsSubL_cons c _ p (ih h)

theorem lowerL_append (a b : List Char) : lowerL (a ++ b) = lowerL a ++ lowerL b := by
  simp [lowerL]

theorem containsCI_append_right (s t p : String) (h : containsCI s p = true) :
    containsCI (s ++ t) p = true := by
  unfold containsCI at h ⊢
  rw [strToList_append, lowerL_append]
  exact containsSubL_append_right _ _ _ h

theorem tailorSummaryStep_contains_self (acc skill : String) :
    containsCI (tailorSummaryStep acc skill) skill = true := by
  unfold tailorSummaryStep
  split
  · assumption
  · unfold containsCI
    rw [show acc ++ " Experienced with " ++ skill ++ "." =
          (acc ++ " Experienced with ") ++ skill ++ "." from rfl]
    rw [strToList_append, strToList_append, lowerL_append, lowerL_append]
    exact containsSubL_append_mid _ _ _

theorem tailorSummaryStep_preserves (acc skill x : String) (h : containsCI acc x = true) :
    containsCI (tailorSummaryStep acc skill) x = true := by
  unfold tailorSummaryStep
  split
  · exact h
  · exact containsCI_append_right _ _ _
      (containsCI_append_right _ _ _ (containsCI_append_right _ _ _ h))

theorem foldl_tailorSummary_preserves (l : List String) (acc x : String)
    (h : containsCI acc x = true) :
    containsCI (l.foldl tailorSummaryStep acc) x = true := by
  induction l generalizing acc with
  | nil => exact h
  | cons s t ih => exact ih _ (tailorSummaryStep_preserves acc s x h)

theorem foldl_tailorSummary_contains (l : List String) (acc skill : String)
    (h : skill ∈ l) :
    containsCI (l.foldl tailorSummaryStep acc) skill = true := by
  induction l generalizing acc with
  | nil => cases h
  | cons s t ih =>
    rcases List.mem_cons.mp h with rfl | hm
    · exact foldl_tailorSummary_preserves t _ _ (tailorSummaryStep_contains_self acc skill)
    · exact ih _ hm

theorem prioritizeSkills_foldl (l rs : List String) (p o : List String) :
    l.foldl
      (fun (acc : List String × List String) s =>
        if skillMatches rs s then (acc.1 ++ [s], acc.2) else (acc.1, acc.2 ++ [s]))
      (p, o)
    = (p ++ l.filter (fun s => skillMatches rs s),
       o ++ l.filter (fun s => !(skillMatches rs s))) := by
  induction l generalizing p o with
  | nil => simp
  | cons s t ih =>
    by_cases hs : skillMatches rs s = true
    · simp [List.foldl_cons, hs, ih, List.filter_cons]
    · simp only [Bool.not_eq_true] at hs
      simp [List.foldl_cons, hs, ih, List.filter_cons]

theorem removeDotDot_cons (c : Char) (t : List Char)
    (hg : c ≠ '.' ∨ t.head? ≠ some '.') :
    removeDotDot (c :: t) = c :: removeDotDot t := by
  rw [removeDotDot.eq_def]
  split
  · rename_i t' heq
    injection heq with h1 h2
    rcases hg with hg | hg
    · exact absurd h1 hg
    · rw [h2] at hg
      simp at hg
  · rename_i c' t' heq
    injection heq with h1 h2
    rw [h1, h2]
  · rename_i heq
    cases heq

theorem noDD_tail (a : Char) (l : List Char) (h : noDD (a :: l) = true) : noDD l = true := by
  cases l with
  | nil => rfl
  | cons b t =>
    simp only [noDD, Bool.and_eq_true] at h
    exact h.2

theorem noDD_cons_of_ne (a : Char) (l : List Char) (ha : a ≠ '.')
    (h : noDD l = true) : noDD (a :: l) = true := by
  cases l with
  | nil => rfl
  | cons b t =>
    simp only [noDD, Bool.and_eq_true, Bool.not_eq_true']
    refine ⟨?_, h⟩
    simp [ha]

theorem noDD_cons_dot (l : List Char) (hl : l.head? ≠ some '.')
    (h : noDD l = true) : noDD ('.' :: l) = true := by
  cases l with
  | nil => rfl
  | cons b t =>
    simp only [List.head?] at hl
    simp only [noDD, Bool.and_eq_true, Bool.not_eq_true']
    refine ⟨?_, h⟩
    have hb : b ≠ '.' := fun hb => hl (by rw [hb])
    simp [hb]

theorem noDD_removeDotDot (l : List Char) : noDD (removeDotDot l) = true := by
  induction l using removeDotDot.induct with
  | case1 t ih => simpa [removeDotDot] using ih
  | case2 c t hguard ih =>
    by_cases hc : c = '.'
    · subst hc
      have hth : t.head? ≠ some '.' := by
        cases t with
        | nil => simp
        | cons b t' =>
          have hb : b ≠ '.' := fun hb => hguard t' rfl (by rw [hb])
          simpa using hb
      rw [removeDotDot_cons '.' t (Or.inr hth)]
      have hhead : (removeDotDot t).head? ≠ some '.' := by
        cases t with
        | nil => simp [removeDotDot]
        | cons b t' =>
          have hb : b ≠ '.' := fun hb => hguard t' rfl (by rw [hb])
          rw [removeDotDot_cons b t' (Or.inl hb)]
          simpa using hb
      exact noDD_cons_dot _ hhead ih
    · rw [removeDotDot_cons c t (Or.inl hc)]
      exact noDD_cons_of_ne c _ hc ih
  | case3 => rfl

theorem mem_removeDotDot (l : List Char) (c : Char) (h : c ∈ removeDotDot l) : c ∈ l := by
  induction l using removeDotDot.induct with
  | case1 t ih =>
    simp only [removeDotDot] at h
    exact List.mem_cons_of_mem _ (List.mem_cons_of_mem _ (ih h))
  | case2 d t hguard ih =>
    have hcons : removeDotDot (d :: t) = d :: removeDotDot t := by
      by_cases hd : d = '.'
      · subst hd
        refine removeDotDot_cons '.' t (Or.inr ?_)
        cases t with
        | nil => simp
        | cons b t' =>
          have hb : b ≠ '.' := fun hb => hguard t' rfl (by rw [hb])
          simpa using hb
      · exact removeDotDot_cons d t (Or.inl hd)
    rw [hcons] at h
    rcases List.mem_cons.mp h with rfl | hm
    · exact List.mem_cons_self _ _
    · exact List.mem_cons_of_mem _ (ih hm)
  | case3 => cases h

theorem containsSubL_dotdot_eq_false (l : List Char) (h : noDD l = true) :
    containsSubL l ['.', '.'] = false := by
  induction l with
  | nil => rfl
  | cons a t ih =>
    have ht := noDD_tail a t h
    simp only [containsSubL, Bool.or_eq_false_iff]
    refine ⟨?_, ih ht⟩
    cases t with
    | nil => simp [startsWithL]
    | cons b t' =>
      simp only [noDD, Bool.and_eq_true, Bool.not_eq_true'] at h
      simp only [startsWithL, Bool.and_eq_false_iff]
      have := h.1
      by_cases hab : a = '.'
      · subst hab
        right
        have hb : ¬(b = '.') := by
          intro hb
          subst hb
          simp at this
        simp [startsWithL, Ne.symm hb]
      · left
        simp [Ne.symm hab]

theorem hostileChar_not_mem_replaceHostile (l : List Char) (c : Char)
    (h : c ∈ replaceHostile l) : hostileChar c = false := by
  simp only [replaceHostile, List.mem_map] at h
  obtain ⟨a, _, rfl⟩ := h
  by_cases hh : hostileChar a = true
  · rw [if_pos hh]
    decide
  · rw [if_neg hh]
    simpa using hh

theorem mem_replaceHostile (l : List Char) (c : Char) (h : c ∈ replaceHostile l) :
    c = '_' ∨ c ∈ l := by
  simp only [replaceHostile, List.mem_map] at h
  obtain ⟨a, ha, rfl⟩ := h
  by_cases hh : hostileChar a = true
  · rw [if_pos hh]
    exact Or.inl rfl
  · rw [if_neg hh]
    exact Or.inr ha

theorem replaceHostile_eq_dot (a : Char) :
    ((if hostileChar a then '_' else a) = '.') ↔ a = '.' := by
  by_cases hh : hostileChar a = true
  · rw [if_pos hh]
    constructor
    · intro h
      cases h
    · intro h
      subst h
      cases hh
  · rw [if_neg hh]

theorem noDD_replaceHostile (l : List Char) (h : noDD l = true) :
    noDD (replaceHostile l) = true := by
  induction l with
  | nil => rfl
  | cons a t ih =>
    cases t with
    | nil => rfl
    | cons b t' =>
      have ht := noDD_tail a (b :: t') h
      have iht := ih ht
      simp only [noDD, Bool.and_eq_true, Bool.not_eq_true'] at h
      simp only [replaceHostile, List.map_cons] at iht ⊢
      simp only [noDD, Bool.and_eq_true, Bool.not_eq_true']
      refine ⟨?_, iht⟩
      have hpair := h.1
      by_cases hb : ((if hostileChar a then '_' else a) = '.') ∧
          ((if hostileChar b then '_' else b) = '.')
      · exfalso
        have ha' : a = '.' := (replaceHostile_eq_dot a).mp hb.1
        have hb' : b = '.' := (replaceHostile_eq_dot b).mp hb.2
        rw [ha', hb'] at hpair
        simp at hpair
      · rcases not_and_or.mp hb with hx | hx
        · simp [hx]
        · simp [hx]

theorem mem_posixBasename (l : List Char) (c : Char) (h : c ∈ posixBasename l) :
    c ∈ l := by
  unfold posixBasename at h
  rw [List.mem_reverse] at h
  have h1 := (List.takeWhile_sublist _).subset h
  have h2 := (List.dropWhile_sublist (fun c => decide (c = '/'))).subset h1
  rwa [List.mem_reverse] at h2

theorem removeNul_eq_self (l : List Char) (h : ∀ c ∈ l, c ≠ '\x00') :
    removeNul l = l := by
  unfold removeNul
  rw [List.filter_eq_self]
  intro a ha
  simpa using h a ha

theorem not_nul_mem_removeNul (l : List Char) (c : Char) (h : c ∈ removeNul l) :
    c ≠ '\x00' := by
  unfold removeNul at h
  have := List.of_mem_filter h
  simpa using this

theorem sanitizeCore_no_hostile (s : String) :
    ∀ c ∈ sanitizeCore s, hostileChar c = false := fun c hc =>
  hostileChar_not_mem_replaceHostile _ c hc

theorem sanitizeCore_no_nul (s : String) : ∀ c ∈ sanitizeCore s, c ≠ '\x00' := by
  intro c hc
  rcases mem_replaceHostile _ c hc with rfl | hm
  · decide
  · exact not_nul_mem_removeNul _ c hm

theorem sanitizeCore_noDD_of_nulFree (s : String) (h : ∀ c ∈ s.toList, c ≠ '\x00') :
    noDD (sanitizeCore s) = true := by
  unfold sanitizeCore
  have hbase : ∀ c ∈ posixBasename s.toList, c ≠ '\x00' := fun c hc =>
    h c (mem_posixBasename _ c hc)
  have hdd : ∀ c ∈ removeDotDot (posixBasename s.toList), c ≠ '\x00' := fun c hc =>
    hbase c (mem_removeDotDot _ c hc)
  rw [removeNul_eq_self _ hdd]
  exact noDD_replaceHostile _ (noDD_removeDotDot _)

theorem dropCommon_fst_nil (f t : List String) (h : (dropCommon f t).1 = []) :
    t = f ++ (dropCommon f t).2 := by
  induction f generalizing t with
  | nil =>
    cases t with
    | nil => rfl
    | cons b bs => rfl
  | cons a as ih =>
    cases t with
    | nil =>
      have : dropCommon (a :: as) ([] : List String) = (a :: as, []) := rfl
      rw [this] at h
      cases h
    | cons b bs =>
      by_cases hab : a = b
      · subst hab
        have hh : dropCommon (a :: as) (a :: bs) = dropCommon as bs := by
          show (if a = a then dropCommon as bs else (a :: as, a :: bs)) = dropCommon as bs
          rw [if_pos rfl]
        rw [hh] at h ⊢
        have := ih bs h
        rw [List.cons_append]
        exact congrArg (a :: ·) this
      · have hh : dropCommon (a :: as) (b :: bs) = (a :: as, b :: bs) := by
          show (if a = b then dropCommon as bs else (a :: as, b :: bs)) = (a :: as, b :: bs)
          rw [if_neg hab]
        rw [hh] at h
        cases h

theorem joinSep_dotdot_startsWith (rest : List String) :
    strStartsWith (joinSep "/" (".." :: rest)) ".." = true := by
  cases rest with
  | nil => rfl
  | cons y t =>
    show strStartsWith (".." ++ "/" ++ joinSep "/" (y :: t)) ".." = true
    unfold strStartsWith
    rw [strToList_append, strToList_append]
    simp [startsWithL]

theorem pathRelativeComps_fst_nil (f t : List String)
    (h : ¬ strStartsWith (pathRelativeComps f t) ".." = true) :
    (dropCommon f t).1 = [] := by
  by_contra hne
  apply h
  unfold pathRelativeComps
  show strStartsWith (joinSep "/" (List.replicate (dropCommon f t).1.length ".." ++
      (dropCommon f t).2)) ".." = true
  cases hfr : (dropCommon f t).1 with
  | nil => exact absurd hfr hne
  | cons a as =>
    simp only [List.length_cons, List.replicate_succ, List.cons_append]
    exact joinSep_dotdot_startsWith _

theorem orElse_some {α : Type} (a : Option α) (b : Unit → Option α) (x : α)
    (h : a.orElse b = some x) : a = some x ∨ b () = some x := by
  cases a with
  | none => right; simpa [Option.orElse] using h
  | some y => left; simpa [Option.orElse] using h

theorem runPattern_valid (f : List Char → Option (List Char)) (l : List Char) (n : String)
    (h : runPattern f l = some n) : validateName n.toList = true := by
  unfold runPattern at h
  cases hs : scanFor f l with
  | none => rw [hs] at h; cases h
  | some cap =>
    rw [hs] at h
    simp only [] at h
    by_cases hv : validateName (trimL cap) = true
    · rw [if_pos hv] at h
      injection h with h'
      subst h'
      exact hv
    · rw [if_neg hv] at h
      cases h

theorem ne_sep_of_not_hostile (c : Char) (h : hostileChar c = false) :
    c ≠ '/' ∧ c ≠ '\\' := by
  constructor
  · intro hc
    subst hc
    exact absurd h (by decide)
  · intro hc
    subst hc
    exact absurd h (by decide)

theorem addToGroup_fst (acc : List (String × List ExperienceEntry)) (c : String)
    (e : ExperienceEntry) :
    (addToGroup acc c e).map Prod.fst =
      if c ∈ acc.map Prod.fst then acc.map Prod.fst else acc.map Prod.fst ++ [c] := by
  induction acc with
  | nil => simp [addToGroup]
  | cons p t ih =>
    obtain ⟨c', es⟩ := p
    by_cases hc : c' = c
    · subst hc
      simp [addToGroup]
    · simp only [addToGroup, if_neg hc, List.map_cons, ih]
      by_cases hm : c ∈ t.map Prod.fst
      · rw [if_pos hm, if_pos (List.mem_cons_of_mem _ hm)]
      · rw [if_neg hm, if_neg (by
          intro hcc
          rcases List.mem_cons.mp hcc with h1 | h1
          · exact hc h1.symm
          · exact hm h1)]
        rfl

theorem mem_addToGroup (acc : List (String × List ExperienceEntry)) (c : String)
    (e : ExperienceEntry) (hnd : (acc.map Prod.fst).Nodup)
    (p : String × List ExperienceEntry) (hp : p ∈ addToGroup acc c e) :
    (p.1 = c ∧ ∃ es0, p.2 = es0 ++ [e] ∧
      ((c, es0) ∈ acc ∨ (es0 = [] ∧ c ∉ acc.map Prod.fst))) ∨
    (p.1 ≠ c ∧ p ∈ acc) := by
  induction acc with
  | nil =>
    simp only [addToGroup, List.mem_singleton] at hp
    subst hp
    exact Or.inl ⟨rfl, [], rfl, Or.inr ⟨rfl, by simp⟩⟩
  | cons q t ih =>
    obtain ⟨c', es⟩ := q
    simp only [List.map_cons, List.nodup_cons] at hnd
    by_cases hc : c' = c
    · subst hc
      simp only [addToGroup, if_pos rfl] at hp
      rcases List.mem_cons.mp hp with rfl | hmem
      · exact Or.inl ⟨rfl, es, rfl, Or.inl (List.mem_cons_self _ _)⟩
      · right
        refine ⟨?_, List.mem_cons_of_mem _ hmem⟩
        intro hp1
        exact hnd.1 (by
          rw [← hp1]
          exact List.mem_map.mpr ⟨p, hmem, rfl⟩)
    · simp only [addToGroup, if_neg hc] at hp
      rcases List.mem_cons.mp hp with rfl | hmem
      · exact Or.inr ⟨fun h => hc h, List.mem_cons_self _ _⟩
      · rcases ih hnd.2 hmem with ⟨h1, es0, h2, h3 | h3⟩ | ⟨h1, h2⟩
        · exact Or.inl ⟨h1, es0, h2, Or.inl (List.mem_cons_of_mem _ h3)⟩
        · refine Or.inl ⟨h1, es0, h2, Or.inr ⟨h3.1, ?_⟩⟩
          intro hcc
          rcases List.mem_cons.mp hcc with hx | hx
          · exact hc hx.symm
          · exact h3.2 hx
        · exact Or.inr ⟨h1, List.mem_cons_of_mem _ h2⟩

theorem addToGroup_nodup (acc : List (String × List ExperienceEntry)) (c : String)
    (e : ExperienceEntry) (hnd : (acc.map Prod.fst).Nodup) :
    ((addToGroup acc c e).map Prod.fst).Nodup := by
  rw [addToGroup_fst]
  by_cases hm : c ∈ acc.map Prod.fst
  · rw [if_pos hm]
    exact hnd
  · rw [if_neg hm]
    rw [List.nodup_append]
    exact ⟨hnd, List.nodup_singleton c, by simpa using hm⟩

theorem groupFold_invariant (todo : List ExperienceEntry)
    (acc : List (String × List ExperienceEntry)) (done : List ExperienceEntry)
    (hnd : (acc.map Prod.fst).Nodup)
    (hdone : ∀ e ∈ done, jsTrim e.company ∈ acc.map Prod.fst)
    (hsnd : ∀ p ∈ acc, p.2 = done.filter (fun e => jsTrim e.company = p.1)) :
    ((todo.foldl (fun a e => addToGroup a (jsTrim e.company) e) acc).map Prod.fst).Nodup ∧
    (∀ e ∈ done ++ todo, jsTrim e.company ∈
      (todo.foldl (fun a e => addToGroup a (jsTrim e.company) e) acc).map Prod.fst) ∧
    (∀ p ∈ todo.foldl (fun a e => addToGroup a (jsTrim e.company) e) acc,
      p.2 = (done ++ todo).filter (fun e => jsTrim e.company = p.1)) := by
  induction todo generalizing acc done with
  | nil =>
    simp only [List.foldl_nil, List.append_nil]
    exact ⟨hnd, hdone, hsnd⟩
  | cons x t ih =>
    simp only [List.foldl_cons]
    have hkeysub : ∀ k, k ∈ acc.map Prod.fst →
        k ∈ (addToGroup acc (jsTrim x.company) x).map Prod.fst := by
      intro k hk
      rw [addToGroup_fst]
      by_cases hm : jsTrim x.company ∈ acc.map Prod.fst
      · rwa [if_pos hm]
      · rw [if_neg hm]
        exact List.mem_append_left _ hk
    have hxkey : jsTrim x.company ∈ (addToGroup acc (jsTrim x.company) x).map Prod.fst := by
      rw [addToGroup_fst]
      by_cases hm : jsTrim x.company ∈ acc.map Prod.fst
      · rwa [if_pos hm]
      · rw [if_neg hm]
        exact List.mem_append_right _ (List.mem_singleton.mpr rfl)
    have hsnd2 : ∀ p ∈ addToGroup acc (jsTrim x.company) x,
        p.2 = (done ++ [x]).filter (fun e => jsTrim e.company = p.1) := by
      intro p hp
      rcases mem_addToGroup acc _ x hnd p hp with ⟨h1, es0, h2, h3 | h3⟩ | ⟨h1, h2⟩
      · have hes0 : es0 = done.filter (fun e => jsTrim e.company = jsTrim x.company) :=
          hsnd (jsTrim x.company, es0) h3
        have hx1 : [x].filter (fun e => decide (jsTrim e.company = p.1)) = [x] := by
          have : decide (jsTrim x.company = p.1) = true := by
            rw [h1]
            exact decide_eq_true rfl
          simp [List.filter, this]
        rw [h2, List.filter_append, hx1, hes0, h1]
      · have hdnil : done.filter (fun e => decide (jsTrim e.company = p.1)) = [] := by
          rw [List.filter_eq_nil_iff]
          intro a ha
          simp only [decide_eq_true_eq]
          intro hak
          apply h3.2
          have := hdone a ha
          rwa [hak, h1] at this
        have hx1 : [x].filter (fun e => decide (jsTrim e.company = p.1)) = [x] := by
          have : decide (jsTrim x.company = p.1) = true := by
            rw [h1]
            exact decide_eq_true rfl
          simp [List.filter, this]
        rw [h2, h3.1, List.filter_append, hdnil, hx1]
      · have hx1 : [x].filter (fun e => decide (jsTrim e.company = p.1)) = [] := by
          rw [List.filter_eq_nil_iff]
          intro a ha
          rw [List.mem_singleton.mp ha]
          simp only [decide_eq_true_eq]
          intro hxx
          exact h1 hxx.symm
        rw [List.filter_append, hx1, List.append_nil]
        exact hsnd p h2
    have hstep := ih (addToGroup acc (jsTrim x.company) x) (done ++ [x])
      (addToGroup_nodup acc _ x hnd)
      (by
        intro e he
        rcases List.mem_append.mp he with he | he
        · exact hkeysub _ (hdone e he)
        · rw [List.mem_singleton.mp he]
          exact hxkey)
      hsnd2
    refine ⟨hstep.1, ?_, ?_⟩
    · intro e he
      apply hstep.2.1
      rcases List.mem_append.mp he with he | he
      · exact List.mem_append_left _ (List.mem_append_left _ he)
      · rcases List.mem_cons.mp he with rfl | he2
        · exact List.mem_append_left _ (List.mem_append_right _ (List.mem_singleton.mpr rfl))
        · exact List.mem_append_right _ he2
    · intro p hp
      have := hstep.2.2 p hp
      rwa [List.append_assoc, List.singleton_append] at this

theorem addToGroup_snd_ne_nil (acc : List (String × List ExperienceEntry)) (c : String)
    (e : ExperienceEntry) (h : ∀ p ∈ acc, p.2 ≠ []) :
    ∀ p ∈ addToGroup acc c e, p.2 ≠ [] := by
  induction acc with
  | nil =>
    intro p hp
    rw [List.mem_singleton.mp hp]
    simp
  | cons q t ih =>
    obtain ⟨c', es⟩ := q
    intro p hp
    by_cases hc : c' = c
    · subst hc
      simp only [addToGroup, if_pos rfl] at hp
      rcases List.mem_cons.mp hp with rfl | hm
      · simp
      · exact h p (List.mem_cons_of_mem _ hm)
    · simp only [addToGroup, if_neg hc] at hp
      rcases List.mem_cons.mp hp with rfl | hm
      · exact h _ (List.mem_cons_self _ _)
      · exact ih (fun q hq => h q (List.mem_cons_of_mem _ hq)) p hm

theorem groupFold_snd_ne_nil (todo : List ExperienceEntry)
    (acc : List (String × List ExperienceEntry)) (h : ∀ p ∈ acc, p.2 ≠ []) :
    ∀ p ∈ todo.foldl (fun a e => addToGroup a (jsTrim e.company) e) acc, p.2 ≠ [] := by
  induction todo generalizing acc with
  | nil => exact h
  | cons x t ih =>
    simp only [List.foldl_cons]
    exact ih _ (addToGroup_snd_ne_nil acc _ x h)

theorem groupByCompany_snd_ne_nil (exps : List ExperienceEntry) :
    ∀ p ∈ groupByCompany exps, p.2 ≠ [] := by
  apply groupFold_snd_ne_nil
  intro p hp
  cases hp

theorem groupByCompany_spec (exps : List ExperienceEntry) :
    ((groupByCompany exps).map Prod.fst).Nodup ∧
    (∀ e ∈ exps, jsTrim e.company ∈ (groupByCompany exps).map Prod.fst) ∧
    (∀ p ∈ groupByCompany exps, p.2 = exps.filter (fun e => jsTrim e.company = p.1)) := by
  obtain ⟨h1, h2, h3⟩ := groupFold_invariant exps [] [] List.nodup_nil
    (by intro e he; cases he) (by intro p hp; cases hp)
  refine ⟨h1, ?_, ?_⟩
  · intro e he
    exact h2 e (by simpa using he)
  · intro p hp
    have := h3 p hp
    simpa using this

theorem mem_insertDesc (k : ExperienceEntry → Int) (x : ExperienceEntry)
    (l : List ExperienceEntry) (y : ExperienceEntry) :
    y ∈ insertDesc k x l ↔ y = x ∨ y ∈ l := by
  induction l with
  | nil => simp [insertDesc]
  | cons z zs ih =>
    unfold insertDesc
    by_cases h : k x ≤ k z
    · rw [if_pos h]
      simp only [List.mem_cons, ih]
      tauto
    · rw [if_neg h]
      exact List.mem_cons

theorem perm_insertDesc (k : ExperienceEntry → Int) (x : ExperienceEntry)
    (l : List ExperienceEntry) : (insertDesc k x l).Perm (x :: l) := by
  induction l with
  | nil => exact List.Perm.refl _
  | cons z zs ih =>
    unfold insertDesc
    by_cases h : k x ≤ k z
    · rw [if_pos h]
      exact (List.Perm.cons z ih).trans (List.Perm.swap x z zs)
    · rw [if_neg h]

theorem perm_sortFoldDesc (todo : List ExperienceEntry)
    (acc : List ExperienceEntry) :
    (todo.foldl (fun a e => insertDesc startKey e a) acc).Perm (todo ++ acc) := by
  induction todo generalizing acc with
  | nil => simp
  | cons x t ih =>
    simp only [List.foldl_cons, List.cons_append]
    have h1 := ih (insertDesc startKey x acc)
    have h2 : (t ++ insertDesc startKey x acc).Perm (t ++ x :: acc) :=
      List.Perm.append_left t (perm_insertDesc startKey x acc)
    exact (h1.trans h2).trans List.perm_middle

theorem perm_sortDescByStart (es : List ExperienceEntry) :
    (sortDescByStart es).Perm es := by
  have h := perm_sortFoldDesc es []
  rw [List.append_nil] at h
  exact h

theorem pairwise_insertDesc (k : ExperienceEntry → Int) (x : ExperienceEntry)
    (l : List ExperienceEntry) (h : l.Pairwise (fun a b => k b ≤ k a)) :
    (insertDesc k x l).Pairwise (fun a b => k b ≤ k a) := by
  induction l with
  | nil => simp [insertDesc]
  | cons z zs ih =>
    rw [List.pairwise_cons] at h
    unfold insertDesc
    by_cases hc : k x ≤ k z
    · rw [if_pos hc, List.pairwise_cons]
      refine ⟨?_, ih h.2⟩
      intro b hb
      rcases (mem_insertDesc k x zs b).mp hb with rfl | hbz
      · exact hc
      · exact h.1 b hbz
    · rw [if_neg hc, List.pairwise_cons]
      refine ⟨?_, List.pairwise_cons.mpr ⟨h.1, h.2⟩⟩
      intro b hb
      rcases List.mem_cons.mp hb with rfl | hbz
      · exact le_of_lt (lt_of_not_le hc)
      · exact le_trans (h.1 b hbz) (le_of_lt (lt_of_not_le hc))

theorem pairwise_sortFoldDesc (todo : List ExperienceEntry)
    (acc : List ExperienceEntry)
    (h : acc.Pairwise (fun a b => startKey b ≤ startKey a)) :
    (todo.foldl (fun a e => insertDesc startKey e a) acc).Pairwise
      (fun a b => startKey b ≤ startKey a) := by
  induction todo generalizing acc with
  | nil => exact h
  | cons x t ih =>
    simp only [List.foldl_cons]
    exact ih _ (pairwise_insertDesc startKey x acc h)

theorem pairwise_sortDescByStart (es : List ExperienceEntry) :
    (sortDescByStart es).Pairwise (fun a b => startKey b ≤ startKey a) :=
  pairwise_sortFoldDesc es [] List.Pairwise.nil

theorem pairwise_getLastD_le (l : List ExperienceEntry)
    (h : l.Pairwise (fun a b => startKey b ≤ startKey a)) :
    ∀ d, l ≠ [] → ∀ e ∈ l, startKey (l.getLastD d) ≤ startKey e := by
  induction l with
  | nil =>
    intro d hne
    cases hne rfl
  | cons a t ih =>
    rw [List.pairwise_cons] at h
    intro d _ e he
    cases t with
    | nil =>
      rw [List.mem_singleton.mp he]
      exact le_refl _
    | cons b t2 =>
      have hlast : (a :: b :: t2).getLastD d = (b :: t2).getLastD a := rfl
      rw [hlast]
      rcases List.mem_cons.mp he with he1 | he2
      · rw [he1]
        have hb := ih h.2 a (by simp) b (List.mem_cons_self _ _)
        exact le_trans hb (h.1 b (List.mem_cons_self _ _))
      · exact ih h.2 a (by simp) e he2

theorem mem_insertYearDesc (x : TailoredExperience) (l : List TailoredExperience)
    (y : TailoredExperience) (h : y = x ∨ y ∈ l) : y ∈ insertYearDesc x l := by
  induction l with
  | nil =>
    rcases h with rfl | hy
    · exact List.mem_singleton.mpr rfl
    · cases hy
  | cons z zs ih =>
    unfold insertYearDesc
    by_cases hc : maxEmbeddedYear x.duration ≤ maxEmbeddedYear z.duration
    · rw [if_pos hc]
      rcases h with rfl | hy
      · exact List.mem_cons_of_mem _ (ih (Or.inl rfl))
      · rcases List.mem_cons.mp hy with rfl | hz
        · exact List.mem_cons_self _ _
        · exact List.mem_cons_of_mem _ (ih (Or.inr hz))
    · rw [if_neg hc]
      rcases h with rfl | hy
      · exact List.mem_cons_self _ _
      · exact List.mem_cons_of_mem _ hy

theorem mem_sortFoldYear (todo : List TailoredExperience)
    (acc : List TailoredExperience) (t : TailoredExperience)
    (h : t ∈ acc ∨ t ∈ todo) :
    t ∈ todo.foldl (fun a e => insertYearDesc e a) acc := by
  induction todo generalizing acc with
  | nil =>
    rcases h with h | h
    · exact h
    · cases h
  | cons x ts ih =>
    simp only [List.foldl_cons]
    rcases h with h | h
    · exact ih _ (Or.inl (mem_insertYearDesc x acc t (Or.inr h)))
    · rcases List.mem_cons.mp h with rfl | hts
      · exact ih _ (Or.inl (mem_insertYearDesc t acc t (Or.inl rfl)))
      · exact ih _ (Or.inr hts)

theorem mem_sortByMaxYearDesc (l : List TailoredExperience) (t : TailoredExperience)
    (h : t ∈ l) : t ∈ sortByMaxYearDesc l :=
  mem_sortFoldYear l [] t (Or.inr h)

theorem length_insertYearDesc (x : TailoredExperience) (l : List TailoredExperience) :
    (insertYearDesc x l).length = l.length + 1 := by
  induction l with
  | nil => rfl
  | cons z zs ih =>
    unfold insertYearDesc
    by_cases hc : maxEmbeddedYear x.duration ≤ maxEmbeddedYear z.duration
    · rw [if_pos hc]
      simp [ih]
    · rw [if_neg hc]
      simp

theorem length_sortFoldYear (todo : List TailoredExperience)
    (acc : List TailoredExperience) :
    (todo.foldl (fun a e => insertYearDesc e a) acc).length =
      acc.length + todo.length := by
  induction todo generalizing acc with
  | nil => rfl
  | cons x ts ih =>
    simp only [List.foldl_cons]
    rw [ih, length_insertYearDesc, List.length_cons]
    omega

theorem length_sortByMaxYearDesc (l : List TailoredExperience) :
    (sortByMaxYearDesc l).length = l.length := by
  have h := length_sortFoldYear l []
  simpa using h

theorem reverse_cons_dropLast {α : Type} (a : α) (l : List α) :
    ((a :: l).reverse).dropLast = l.reverse := by
  rw [List.reverse_cons, List.dropLast_concat]

theorem processGroup_multi (req : ParsedJobRequirements) (c : String)
    (es : List ExperienceEntry) (m : ExperienceEntry) (r : List ExperienceEntry)
    (hs : sortDescByStart es = m :: r) (hne : r ≠ []) :
    (processGroup req c es).map (fun t => (t.jobTitle, t.company, t.duration)) =
    [(m.jobTitle ++ " (Previously: " ++
        joinSep ", " ((r.map (fun e => e.jobTitle)).reverse) ++ ")",
      c, formatDuration (r.getLastD m).startDate m.endDate)] := by
  cases r with
  | nil => exact absurd rfl hne
  | cons r0 rt =>
    unfold processGroup
    rw [hs]
    simp only [List.map_cons, List.map_nil]
    rw [reverse_cons_dropLast]

theorem processGroup_length (req : ParsedJobRequirements) (c : String)
    (es : List ExperienceEntry) (hne : es ≠ []) :
    (processGroup req c es).length = 1 := by
  cases hs : sortDescByStart es with
  | nil =>
    exfalso
    have hperm := perm_sortDescByStart es
    rw [hs] at hperm
    exact hne hperm.symm.eq_nil
  | cons m r =>
    cases r with
    | nil =>
      unfold processGroup
      rw [hs]
      rfl
    | cons r0 rt =>
      unfold processGroup
      rw [hs]
      rfl

theorem flatten_ones_length (L : List (List TailoredExperience))
    (h : ∀ l ∈ L, l.length = 1) : L.flatten.length = L.length := by
  induction L with
  | nil => rfl
  | cons a t ih =>
    rw [List.flatten_cons, List.length_append,
      ih (fun l hl => h l (List.mem_cons_of_mem _ hl)), h a (List.mem_cons_self _ _),
      List.length_cons]
    omega

theorem groupAndTailor_length (exps : List ExperienceEntry)
    (req : ParsedJobRequirements) :
    (groupAndTailorExperience exps req).length = (groupByCompany exps).length := by
  unfold groupAndTailorExperience
  have h1 : ∀ l ∈ (groupByCompany exps).map (fun g => processGroup req g.1 g.2),
      l.length = 1 := by
    intro l hl
    rcases List.mem_map.mp hl with ⟨p, hp, rfl⟩
    exact processGroup_length req p.1 p.2 (groupByCompany_snd_ne_nil exps p hp)
  rw [length_sortByMaxYearDesc, flatten_ones_length _ h1, List.length_map]


/-! ## Claim theorems -/

set_option maxRecDepth 40000

/-- Claim C1: the styled-page rendering pipeline is claimed to HTML-escape
every user-controlled string, including in the cover-letter HTML rendering.
The cover-letter formatter interpolates the profile name into the template
with no escaping: rendered for a profile whose full name carries a script
tag, the output bytes contain the raw unescaped `<script>` substring,
contradicting the claim (and the stated security intent of the CV path,
which does escape). -/
theorem coverLetterHTML_embeds_unescaped_script :
    containsSubStr
      (formatCoverLetterAsHTML scriptNameCoverLetter "October 12, 2026")
      "<script>" = true ∧
    containsSubStr scriptNameCoverLetter.personalInfo.fullName "<script>" = true := by
  constructor
  · decide
  · decide

/-- Claim C4: the PDF branch is claimed to remove the intermediate stylesheet
on every exit path. When the external conversion throws, the branch writes
the temporary stylesheet but never unlinks it: the error is rethrown with no
cleanup. (The stylesheet name is also `cv-style-<Date.now()>.css`, a
deterministic function of the millisecond clock rather than an unpredictable
name.) -/
theorem pdfBranch_leaks_stylesheet_on_conversion_failure (tmpdir filePath : String)
    (run : PdfRun) (h : run.convThrows = true) :
    FsOp.writeFile (tempCssPath tmpdir run.nowMs) ∈ (pdfBranch tmpdir filePath run).1 ∧
    FsOp.unlink (tempCssPath tmpdir run.nowMs) ∉ (pdfBranch tmpdir filePath run).1 ∧
    (pdfBranch tmpdir filePath run).2 =
      Except.error "PDF generation failed: conversion error" := by
  unfold pdfBranch
  rw [if_pos h]
  refine ⟨List.mem_singleton.mpr rfl, ?_, rfl⟩
  intro hmem
  rcases List.mem_singleton.mp hmem with h'
  cases h'

/-- Witness for the stylesheet-leak theorem at a concrete failing run. -/
theorem pdfBranch_leaks_stylesheet_witness :
    FsOp.writeFile (tempCssPath "/tmp" 1700000000000) ∈
      (pdfBranch "/tmp" "/out/cv.pdf"
        { nowMs := 1700000000000, convThrows := true, pdfFilenameOk := true,
          outputFileExists := true }).1 ∧
    FsOp.unlink (tempCssPath "/tmp" 1700000000000) ∉
      (pdfBranch "/tmp" "/out/cv.pdf"
        { nowMs := 1700000000000, convThrows := true, pdfFilenameOk := true,
          outputFileExists := true }).1 ∧
    (pdfBranch "/tmp" "/out/cv.pdf"
        { nowMs := 1700000000000, convThrows := true, pdfFilenameOk := true,
          outputFileExists := true }).2 =
      Except.error "PDF generation failed: conversion error" :=
  pdfBranch_leaks_stylesheet_on_conversion_failure "/tmp" "/out/cv.pdf"
    { nowMs := 1700000000000, convThrows := true, pdfFilenameOk := true,
      outputFileExists := true } rfl

/-- Claim C5: every style option interpolated into stylesheet text or passed
to the page conversion is claimed to be whitelist-validated first. The PDF
branch takes its style strings from raw `process.env` values and raw caller
options with no validation: a font size failing the `^\d+px$` whitelist is
interpolated verbatim into the generated stylesheet, a margin failing the
`<number><unit>` whitelist flows through unchanged, and a page size outside
the enum whitelist becomes the effective page size handed to the converter.
(The `ConfigSchema` whitelists exist but are not on this code path.) -/
theorem unvalidated_style_reaches_stylesheet :
    fontSizeOk evilFontSize = false ∧
    containsSubStr
      (pdfCssContent (jsOrDefault (some evilFontSize) "12px") "1.4" "20px" "15px" "13px"
        "8px" "12px")
      evilFontSize = true ∧
    marginOk "10vw" = false ∧
    jsOrDefault (some "10vw") "10mm" = "10vw" ∧
    pageSizeOk (effectivePageSize (some "Evil") none) = false := by
  refine ⟨by decide, by decide, by decide, by decide, by decide⟩

/-- Claim C8 counterexample: the claim promises a case-insensitive substring
match in either direction. `Java` is a substring of the required skill
`JavaScript`, so the claimed partition puts `Java` in the matched block; the
source only tests the skill-contains-requirement direction and leaves `Java`
unmatched, producing a different order. -/
theorem prioritizeSkills_not_either_direction :
    prioritizeSkills ["Java", "Python"] ["JavaScript", "Python"] = ["Python", "Java"] ∧
    specPrioritizeSkills ["Java", "Python"] ["JavaScript", "Python"] = ["Java", "Python"] ∧
    prioritizeSkills ["Java", "Python"] ["JavaScript", "Python"] ≠
      specPrioritizeSkills ["Java", "Python"] ["JavaScript", "Python"] := by
  refine ⟨by decide, by decide, by decide⟩

/-- Claim C8 (amended): skill prioritization is a stable partition of the
technical-skill list, matched skills first, each block preserving original
order — with the match predicate of the source: exact case-insensitive
equality with a required skill, or the skill containing a required skill as
a case-insensitive substring (that direction only). -/
theorem prioritizeSkills_stable_partition (us rs : List String) :
    prioritizeSkills us rs =
      us.filter (fun s => skillMatches rs s) ++
      us.filter (fun s => !(skillMatches rs s)) := by
  unfold prioritizeSkills
  rw [prioritizeSkills_foldl us rs [] []]
  simp

/-- Claim C9 counterexample: the claim says the first pattern that matches
wins. On this description the first pattern (`contact <Name>`) does match,
capturing `JOHN SMITH`, which fails the two-capitalized-words validation —
under the claim the extraction would yield no name. The source instead falls
through to the third pattern and returns `Jane Doe`. -/
theorem extractHiringManagerName_falls_through :
    extractHiringManagerName "Contact JOHN SMITH. Hiring manager: Jane Doe" =
      some "Jane Doe" ∧
    specExtractHiringManagerName "Contact JOHN SMITH. Hiring manager: Jane Doe" = none := by
  refine ⟨by decide, by decide⟩

/-- Claim C9 (amended): the ordered contextual patterns are applied to the
description only, each contributing its leftmost match; a candidate is
accepted only if it is exactly two capitalized words, and a pattern whose
candidate fails validation is skipped, later patterns still being tried.
Every returned name satisfies the validation regex; `Contact John Smith for
details` yields `John Smith` and `Contact JOHN for details` yields no
name. -/
theorem extractHiringManagerName_spec :
    (∀ (d n : String), extractHiringManagerName d = some n →
      validateName n.toList = true) ∧
    extractHiringManagerName "Contact John Smith for details" = some "John Smith" ∧
    extractHiringManagerName "Contact JOHN for details" = none := by
  refine ⟨?_, by decide, by decide⟩
  intro d n h
  unfold extractHiringManagerName at h
  rcases orElse_some _ _ _ h with h | h
  · exact runPattern_valid _ _ _ h
  · rcases orElse_some _ _ _ h with h | h
    · exact runPattern_valid _ _ _ h
    · rcases orElse_some _ _ _ h with h | h
      · exact runPattern_valid _ _ _ h
      · rcases orElse_some _ _ _ h with h | h
        · exact runPattern_valid _ _ _ h
        · rcases orElse_some _ _ _ h with h | h
          · exact runPattern_valid _ _ _ h
          · exact runPattern_valid _ _ _ h

/-- Witness for the extraction theorem: the validated name of the spec
example satisfies the validation regex. -/
theorem extractHiringManagerName_spec_witness :
    validateName ("John Smith" : String).toList = true :=
  extractHiringManagerName_spec.1 "Contact John Smith for details" "John Smith"
    (by decide)

/-- Claim C10 counterexample: with a senior-level requirement, the literal
`experienced` to `senior experienced` rewrite can break a key skill that was
present: the summary contains `very experienced`, so nothing is appended,
and the rewrite turns it into `very senior experienced`, after which the
recognized key skill is no longer a substring of the tailored summary. -/
theorem tailorSummary_senior_rewrite_drops_skill :
    "very experienced" ∈ seniorReq.keySkills ∧
    containsCI (tailorSummary "A very experienced developer" seniorReq)
      "very experienced" = false := by
  refine ⟨by decide, by decide⟩

/-- Claim C10 (amended): whenever the requirement level is not `senior` (so
the blunt `experienced` rewrite cannot fire), every recognized key skill is
a case-insensitive substring of the tailored summary: absent skills are
appended as `Experienced with X.` sentences and later appends never remove
earlier occurrences. -/
theorem tailorSummary_contains_every_skill (summary : String)
    (req : ParsedJobRequirements) (h : req.experienceLevel ≠ "senior") :
    ∀ skill ∈ req.keySkills, containsCI (tailorSummary summary req) skill = true := by
  intro skill hm
  unfold tailorSummary
  rw [if_neg (fun hc => h hc.1)]
  exact foldl_tailorSummary_contains _ _ _ hm

/-- Witness for the summary-tailoring theorem at a concrete mid-level
requirement. -/
theorem tailorSummary_contains_every_skill_witness :
    containsCI (tailorSummary "I build things." midReq) "Python" = true :=
  tailorSummary_contains_every_skill "I build things." midReq (by decide) "Python"
    (by decide)

/-- Claim C2 counterexample: `joinSafely(base, "../outside")` is claimed to
raise for every base. It does not: segment sanitization strips the `..`
before joining, so the call returns the path `outside` inside the base
instead of raising. -/
theorem safeJoinPath_dotdot_returns_inside :
    safeJoinPath "/cwd" "/base" ["../outside"] = Except.ok "/base/outside" := rfl

/-- Claim C2 (amended): `safeJoinPath` sanitizes each segment (NUL bytes and
`..` sequences removed) and then re-verifies that the final resolved path is
a descendant of the base directory, raising whenever the result would escape
— so every returned path extends the resolved base components. Because `..`
is stripped during sanitization, `joinSafely(base, "../outside")` does not
raise; it returns `outside` under the base. -/
theorem safeJoinPath_sound (cwd base : String) (segs : List String) (r : String)
    (h : safeJoinPath cwd base segs = Except.ok r) :
    ∃ rest, r = compsToAbsString (resolvedComps cwd base ++ rest) := by
  unfold safeJoinPath at h
  by_cases hc :
      (strStartsWith
         (pathRelativeComps (resolvedComps cwd base)
           (resolvedComps cwd (pathJoinMany base (segs.map sanitizeSegment)))) ".." ||
       strStartsWith
         (pathRelativeComps (resolvedComps cwd base)
           (resolvedComps cwd (pathJoinMany base (segs.map sanitizeSegment)))) "/") = true
  · rw [if_pos hc] at h
    cases h
  · rw [if_neg hc] at h
    injection h with h'
    simp only [Bool.or_eq_true, not_or] at hc
    have hfr := pathRelativeComps_fst_nil _ _ hc.1
    have hext := dropCommon_fst_nil _ _ hfr
    refine ⟨(dropCommon (resolvedComps cwd base)
      (resolvedComps cwd (pathJoinMany base (segs.map sanitizeSegment)))).2, ?_⟩
    rw [← h', ← hext]

/-- Witness for the safe-join soundness theorem at a concrete join that
succeeds. -/
theorem safeJoinPath_sound_witness :
    ∃ rest, "/base/docs/cv.pdf" = compsToAbsString (resolvedComps "/cwd" "/base" ++ rest) :=
  safeJoinPath_sound "/cwd" "/base" ["docs", "cv.pdf"] "/base/docs/cv.pdf" rfl

/-- Claim C3 counterexample: sanitization removes `..` sequences before NUL
bytes, so a NUL byte separating two dots is removed afterwards and the two
dots become adjacent again: `.\0.` sanitizes to `_..`, whose returned name
contains a `..` sequence, contradicting the no-traversal-sequence clause. -/
theorem sanitizeFileName_nul_reintroduces_dotdot :
    sanitizeFileName ".\x00." = Except.ok "_.." ∧
    containsSubL ("_.." : String).toList ['.', '.'] = true := by
  refine ⟨rfl, by decide⟩

/-- Claim C3 (amended): for every input on which `sanitizeFileName` succeeds,
the returned name contains no hostile characters (hence no path separators),
no NUL bytes, and does not begin with a dot; for inputs free of NUL bytes
the returned name also contains no `..` sequence (a `..` can only reappear
when NUL removal joins two dots); and whenever the sanitized core is empty
the function fails with a validation error instead of returning a name. -/
theorem sanitizeFileName_spec (s : String) :
    (∀ r, sanitizeFileName s = Except.ok r →
      (∀ c ∈ r.toList, hostileChar c = false) ∧
      (∀ c ∈ r.toList, c ≠ '/' ∧ c ≠ '\\' ∧ c ≠ '\x00') ∧
      startsWithDot r.toList = false ∧
      ((∀ c ∈ s.toList, c ≠ '\x00') → containsSubL r.toList ['.', '.'] = false)) ∧
    (sanitizeCore s = [] → ∃ msg, sanitizeFileName s = Except.error msg) := by
  constructor
  · intro r hr
    unfold sanitizeFileName at hr
    by_cases h0 : s.toList.isEmpty = true
    · rw [if_pos h0] at hr
      cases hr
    · rw [if_neg h0] at hr
      by_cases h1 : ((sanitizeCore s).isEmpty || (sanitizeCore s).all isWsChar) = true
      · rw [if_pos h1] at hr
        cases hr
      · rw [if_neg h1] at hr
        by_cases h2 : startsWithDot (sanitizeCore s) = true
        · rw [if_pos h2] at hr
          injection hr with hr'
          subst hr'
          refine ⟨?_, ?_, ?_, ?_⟩
          · intro c hc
            rcases List.mem_cons.mp hc with rfl | hm
            · decide
            · exact sanitizeCore_no_hostile s c hm
          · intro c hc
            rcases List.mem_cons.mp hc with rfl | hm
            · refine ⟨by decide, by decide, by decide⟩
            · have hh := sanitizeCore_no_hostile s c hm
              have hsep := ne_sep_of_not_hostile c hh
              exact ⟨hsep.1, hsep.2, sanitizeCore_no_nul s c hm⟩
          · rfl
          · intro hnul
            have hdd := containsSubL_dotdot_eq_false _ (sanitizeCore_noDD_of_nulFree s hnul)
            show containsSubL ('_' :: sanitizeCore s) ['.', '.'] = false
            simp only [containsSubL, Bool.or_eq_false_iff]
            exact ⟨by simp [startsWithL], hdd⟩
        · rw [if_neg h2] at hr
          injection hr with hr'
          subst hr'
          refine ⟨?_, ?_, ?_, ?_⟩
          · intro c hc
            exact sanitizeCore_no_hostile s c hc
          · intro c hc
            have hh := sanitizeCore_no_hostile s c hc
            have hsep := ne_sep_of_not_hostile c hh
            exact ⟨hsep.1, hsep.2, sanitizeCore_no_nul s c hc⟩
          · simpa using h2
          · intro hnul
            exact containsSubL_dotdot_eq_false _ (sanitizeCore_noDD_of_nulFree s hnul)
  · intro hcore
    unfold sanitizeFileName
    by_cases h0 : s.toList.isEmpty = true
    · rw [if_pos h0]
      exact ⟨_, rfl⟩
    · rw [if_neg h0]
      have h1 : ((sanitizeCore s).isEmpty || (sanitizeCore s).all isWsChar) = true := by
        rw [hcore]
        rfl
      rw [if_pos h1]
      exact ⟨_, rfl⟩

/-- Witness for the sanitization theorem: the spec example
`../../etc/passwd` succeeds with `passwd`, which carries no traversal
sequence, and the empty input fails with an error. -/
theorem sanitizeFileName_spec_witness :
    containsSubL ("passwd" : String).toList ['.', '.'] = false ∧
    (∃ msg, sanitizeFileName "" = Except.error msg) :=
  ⟨((sanitizeFileName_spec "../../etc/passwd").1 "passwd" rfl).2.2.2 (by decide),
   (sanitizeFileName_spec "").2 rfl⟩

/-- Claim C7 counterexample: the claimed output `Jan 2020 – Present` uses an
en dash; the source joins the two parts with the ASCII sequence
`space hyphen space`, producing `Jan 2020 - Present`, a different byte
string. -/
theorem formatDuration_uses_ascii_hyphen :
    formatDuration "2020-01" none = "Jan 2020 - Present" ∧
    formatDuration "2020-01" none ≠ "Jan 2020 – Present" := by
  refine ⟨rfl, by decide⟩

/-- Claim C7 (amended): duration formatting parses the start and end strings
as calendar dates and renders at month-year granularity with the ASCII
separator `-`. An unparseable start yields the literal invalid marker; a
missing, blank, `present`, or unparseable end yields `<start> - Present`;
otherwise the result is `<start> - <end>`. -/
theorem formatDuration_spec (s : String) (e : Option String) :
    (parseJsDate s = none → formatDuration s e = "Invalid start date") ∧
    (∀ d, parseJsDate s = some d →
      ((e = none ∨ ∃ es, e = some es ∧
          (jsTrim es = "" ∨ lowerStr es = "present" ∨ parseJsDate es = none)) →
        formatDuration s e = formatMonthYear d ++ " - Present") ∧
      (∀ es d2, e = some es → jsTrim es ≠ "" → lowerStr es ≠ "present" →
        parseJsDate es = some d2 →
        formatDuration s e = formatMonthYear d ++ " - " ++ formatMonthYear d2)) := by
  constructor
  · intro hp
    unfold formatDuration
    rw [hp]
  · intro d hp
    constructor
    · intro hend
      unfold formatDuration
      rw [hp]
      rcases hend with rfl | ⟨es, rfl, hcase⟩
      · rfl
      · rcases hcase with hb | hb | hb
        · simp only []
          rw [if_pos (Or.inl hb)]
        · simp only []
          rw [if_pos (Or.inr hb)]
        · simp only []
          by_cases hbp : jsTrim es = "" ∨ lowerStr es = "present"
          · rw [if_pos hbp]
          · rw [if_neg hbp, hb]
    · intro es d2 he hb1 hb2 hp2
      subst he
      unfold formatDuration
      rw [hp]
      simp only []
      rw [if_neg (not_or.mpr ⟨hb1, hb2⟩), hp2]

/-- Witness for the duration-formatting theorem at the spec examples: start
`2020-01` with no end renders as `Jan 2020 - Present`, and the unparseable
start `not-a-date` yields the invalid marker. -/
theorem formatDuration_spec_witness :
    formatDuration "2020-01" none = formatMonthYear (2020, 1, 1) ++ " - Present" ∧
    formatDuration "not-a-date" none = "Invalid start date" :=
  ⟨((formatDuration_spec "2020-01" none).2 (2020, 1, 1) rfl).1 (Or.inl rfl),
   (formatDuration_spec "not-a-date" none).1 rfl⟩

/-- Claim C6 counterexample: the claimed display `2019 – Present` (en dash,
bare years) does not occur in the produced output: the consolidated Acme
entry displays `Jan 2019 - Present` (month-year granularity, ASCII hyphen),
which does not contain the claimed byte string. -/
theorem consolidation_duration_rendering :
    (groupAndTailorExperience [acmeEngineer, acmeSeniorEngineer] emptyReq).map
      (fun t => t.duration) = ["Jan 2019 - Present"] ∧
    containsSubStr "Jan 2019 - Present" "2019 – Present" = false := by
  refine ⟨by decide, by decide⟩

/-- Claim C6 (amended): for every experience list, tailoring groups entries
by trimmed organization name — each group holds exactly the entries with
that trimmed name in original order, company keys are distinct and cover
every entry, and the output has exactly one entry per group. A multi-entry
group (its in-group order given by the descending stable sort on parsed
start dates, whose head is a most-recent entry and whose last element is an
earliest entry by start key) becomes a single output entry whose title is
the most recent role annotated with a `(Previously: ...)` list of all the
earlier titles oldest-to-newest, and whose displayed duration is formatted
from the earliest start to the most recent end (`Present` when open),
rendered at month-year granularity with an ASCII hyphen. -/
theorem groupAndTailorExperience_spec (exps : List ExperienceEntry)
    (req : ParsedJobRequirements) :
    (∀ p ∈ groupByCompany exps, p.2 = exps.filter (fun e => jsTrim e.company = p.1)) ∧
    ((groupByCompany exps).map Prod.fst).Nodup ∧
    (∀ e ∈ exps, jsTrim e.company ∈ (groupByCompany exps).map Prod.fst) ∧
    (groupAndTailorExperience exps req).length = (groupByCompany exps).length ∧
    (∀ p ∈ groupByCompany exps, ∀ m r, sortDescByStart p.2 = m :: r → r ≠ [] →
      (∀ e ∈ p.2, startKey e ≤ startKey m) ∧
      (∀ e ∈ p.2, startKey (r.getLastD m) ≤ startKey e) ∧
      r.Pairwise (fun a b => startKey b ≤ startKey a) ∧
      ∃ t ∈ groupAndTailorExperience exps req,
        t.jobTitle = m.jobTitle ++ " (Previously: " ++
          joinSep ", " ((r.map (fun e => e.jobTitle)).reverse) ++ ")" ∧
        t.company = p.1 ∧
        t.duration = formatDuration (r.getLastD m).startDate m.endDate) := by
  obtain ⟨hnd, hcover, hsnd⟩ := groupByCompany_spec exps
  refine ⟨hsnd, hnd, hcover, groupAndTailor_length exps req, ?_⟩
  intro p hp m r hs hr
  have hperm := perm_sortDescByStart p.2
  have hpw := pairwise_sortDescByStart p.2
  rw [hs] at hperm hpw
  have hmem : ∀ e ∈ p.2, e ∈ m :: r := fun e he => hperm.mem_iff.mpr he
  have hpwc := List.pairwise_cons.mp hpw
  refine ⟨?_, ?_, hpwc.2, ?_⟩
  · intro e he
    rcases List.mem_cons.mp (hmem e he) with he1 | he2
    · rw [he1]
    · exact hpwc.1 e he2
  · intro e he
    have h := pairwise_getLastD_le (m :: r) hpw m (by simp) e (hmem e he)
    rwa [List.getLastD_cons] at h
  · have hone := processGroup_multi req p.1 p.2 m r hs hr
    have hxt : ∃ t0, processGroup req p.1 p.2 = [t0] := by
      cases hP : processGroup req p.1 p.2 with
      | nil =>
        rw [hP] at hone
        cases hone
      | cons a l =>
        cases l with
        | nil => exact ⟨a, rfl⟩
        | cons b l2 =>
          rw [hP] at hone
          simp at hone
    obtain ⟨t0, hP⟩ := hxt
    rw [hP] at hone
    simp only [List.map_cons, List.map_nil, List.cons.injEq, and_true,
      Prod.mk.injEq] at hone
    refine ⟨t0, ?_, hone.1, hone.2.1, hone.2.2⟩
    unfold groupAndTailorExperience
    apply mem_sortByMaxYearDesc
    apply List.mem_flatten.mpr
    refine ⟨processGroup req p.1 p.2, List.mem_map.mpr ⟨p, hp, rfl⟩, ?_⟩
    rw [hP]
    exact List.mem_singleton.mpr rfl

/-- Witness for the consolidation theorem at the Acme example of the spec:
`Engineer` (2019-01 to 2021-01) and `Senior Engineer` (2021-01, open) merge
into `Senior Engineer (Previously: Engineer)` spanning the earliest start to
`Present`. -/
theorem groupAndTailorExperience_spec_witness :
    ∃ t ∈ groupAndTailorExperience [acmeEngineer, acmeSeniorEngineer] emptyReq,
      t.jobTitle = acmeSeniorEngineer.jobTitle ++ " (Previously: " ++
        joinSep ", " (([acmeEngineer].map (fun e => e.jobTitle)).reverse) ++ ")" ∧
      t.company = jsTrim acmeEngineer.company ∧
      t.duration = formatDuration ([acmeEngineer].getLastD acmeSeniorEngineer).startDate
        acmeSeniorEngineer.endDate :=
  ((groupAndTailorExperience_spec [acmeEngineer, acmeSeniorEngineer] emptyReq).2.2.2.2
      (jsTrim acmeEngineer.company, [acmeEngineer, acmeSeniorEngineer]) (by decide)
      acmeSeniorEngineer [acmeEngineer] (by decide) (by decide)).2.2.2

